import Mathlib

/-!
Verification development for the trip-accountant settlement engine.

The Go source (package `trip`) is shallowly embedded below:
* `Participant`, `Expense`, `Trip` mirror the data model;
* Go maps (`Payments`, `Settlement`, the seen-pair `lookup` set) are modelled as
  association lists in insertion order, with read/insert/delete operations that
  mirror Go map semantics (missing keys read as the zero value, `delete` on a
  missing key is a no-op);
* `Expense.Settle`'s greedy two-pointer loop is `settleLoop` (fuel-indexed, with
  a fuel budget `settleFuel` large enough for the loop to finish);
* `Trip.Complete`'s netting fold is `foldTransfer`/`tripLedger`, and its
  database side effects on the success path are recorded as a `DBOp` trace.
-/

set_option autoImplicit false

namespace TripAccountant

/-- Participant in an expenditure event (Go `Participant`): the normalized email
identity and the amount paid in cents. The Go `UserID` field plays no role in
settlement and is omitted. -/
structure Participant where
  email : String
  paid : Int
deriving DecidableEq, Repr

/-- A directed transfer as emitted by the settlement loop: the source records
`rslt[p[j].Email][p[i].Email] += amount`, i.e. payer `p[j]` owes payee `p[i]`. -/
structure Transfer where
  payer : String
  payee : String
  amount : Int
deriving DecidableEq, Repr

/-- Go `type Payments map[string]int`: payee to amount, as an association list. -/
abbrev Payments := List (String × Int)

/-- Go `type Settlement map[string]Payments`: payer to payments, as an association list. -/
abbrev Settlement := List (String × Payments)

/-- Look a key up in an association list (Go map read without the default). -/
def alookup {β : Type} : List (String × β) → String → Option β
  | [], _ => none
  | (k, v) :: rest, key => if k = key then some v else alookup rest key

/-- Go map assignment `m[key] = v`: replace the entry if the key is present,
otherwise add it (insertion order kept by appending at the end). -/
def aset {β : Type} : List (String × β) → String → β → List (String × β)
  | [], key, v => [(key, v)]
  | (k, w) :: rest, key, v => if k = key then (k, v) :: rest else (k, w) :: aset rest key v

/-- Go `delete(m, key)`: remove the entry for `key` (maps built by `aset` hold
each key at most once, so removing every occurrence is the same operation). -/
def adel {β : Type} : List (String × β) → String → List (String × β)
  | [], _ => []
  | (k, v) :: rest, key => if k = key then adel rest key else (k, v) :: adel rest key

/-- Membership test in the seen-pair set (Go `_, exists := lookup[yek]`). -/
def hasKey : List String → String → Bool
  | [], _ => false
  | x :: rest, k => if x = k then true else hasKey rest k

/-- Go `lookup[key] = true` on a `map[string]bool` used as a set. -/
def addKey (l : List String) (k : String) : List String :=
  if hasKey l k then l else l ++ [k]

/-- Go `delete(lookup, key)`. -/
def delKey : List String → String → List String
  | [], _ => []
  | x :: rest, k => if x = k then delKey rest k else x :: delKey rest k

/-- Seen-pair key for a directed pair, Go `fmt.Sprintf("%s>%s", payer, payee)`. -/
def pairKey (payer payee : String) : String := payer ++ ">" ++ payee

/-- An identity is separator-free when it does not contain the `>` character the
seen-pair keys are glued with. -/
def sepFree (s : String) : Prop := '>' ∉ s.data

instance (s : String) : Decidable (sepFree s) := by
  unfold sepFree; infer_instance

/-- Go read `s[payer][payee]` with map zero-value semantics: a missing payer row
reads as the nil map, and a missing payee entry reads as 0. -/
def getAmt (s : Settlement) (payer payee : String) : Int :=
  match alookup s payer with
  | none => 0
  | some pp => (alookup pp payee).getD 0

/-- The ledger entry for an ordered pair, distinguishing a missing entry from a
present one. -/
def entry? (s : Settlement) (payer payee : String) : Option Int :=
  match alookup s payer with
  | none => none
  | some pp => alookup pp payee

/-- Go `Settlement.upsertAmount` (source lines 649-658): register the payment
and add the seen-pair key. -/
def upsertAmount (s : Settlement) (payer payee : String) (amount : Int)
    (lookup : List String) : Settlement × List String :=
  let s' := match alookup s payer with
    | none => aset s payer [(payee, amount)]
    | some pp => aset s payer (aset pp payee ((alookup pp payee).getD 0 + amount))
  (s', addKey lookup (pairKey payer payee))

/-- The `existing >= amount` netting branch of `Trip.Complete`:
`rslt[rcv][k] -= amt; if rslt[rcv][k] == 0 { delete(rslt[rcv], k) }`.
The missing-row case is unreachable for the positive amounts the settler emits
(the guard `existing >= amt > 0` forces a present entry; Go would panic on
assigning into a nil inner map). -/
def decEntry (s : Settlement) (rcv k : String) (amt : Int) : Settlement :=
  match alookup s rcv with
  | none => s
  | some pp =>
    let v := (alookup pp k).getD 0 - amt
    if v = 0 then aset s rcv (adel pp k) else aset s rcv (aset pp k v)

/-- Go `delete(rslt[rcv], k)`: delete the inner entry only; deleting from a nil
(missing) inner map is a no-op. The payer row itself is never removed. -/
def delEntry (s : Settlement) (rcv k : String) : Settlement :=
  match alookup s rcv with
  | none => s
  | some pp => aset s rcv (adel pp k)

/-- Running state of `Trip.Complete`'s aggregation: the ledger under
construction and the seen directed-pair set. -/
structure FoldState where
  rslt : Settlement
  lookup : List String
deriving DecidableEq, Repr

/-- One netting step of `Trip.Complete`'s inner loop (source lines 670-691) for
a transfer `k -> rcv` of `amt`. -/
def foldTransfer (st : FoldState) (t : Transfer) : FoldState :=
  let yek := pairKey t.payee t.payer
  if hasKey st.lookup yek then
    if t.amount ≤ getAmt st.rslt t.payee t.payer then
      { st with rslt := decEntry st.rslt t.payee t.payer t.amount }
    else
      let amt := t.amount - getAmt st.rslt t.payee t.payer
      let r := upsertAmount (delEntry st.rslt t.payee t.payer) t.payer t.payee amt
        (delKey st.lookup yek)
      { rslt := r.1, lookup := r.2 }
  else
    let r := upsertAmount st.rslt t.payer t.payee t.amount st.lookup
    { rslt := r.1, lookup := r.2 }

/-- The accumulation `Expense.Settle` performs per emitted transfer:
ensure the payer row exists, then `rslt[payer][payee] += amount`. -/
def accTransfer (s : Settlement) (t : Transfer) : Settlement :=
  match alookup s t.payer with
  | none => aset s t.payer [(t.payee, t.amount)]
  | some pp => aset s t.payer (aset pp t.payee ((alookup pp t.payee).getD 0 + t.amount))

/-- The transfers read off a `Settlement` by `Trip.Complete`'s nested range
loops (`for k, v := range e.Settle() { for rcv, amt := range v { ... } }`);
association-list order stands in for Go's unspecified map iteration order. -/
def settlementEntries (s : Settlement) : List Transfer :=
  (s.map (fun kv => kv.2.map (fun pa => Transfer.mk kv.1 pa.1 pa.2))).flatten

/-- Indexing into the working participant slice; out-of-range reads return a
dummy (the loop below only ever indexes in range, where Go would otherwise
panic). -/
def getP : List Participant → Nat → Participant
  | [], _ => { email := "", paid := 0 }
  | x :: _, 0 => x
  | _ :: rest, k + 1 => getP rest k

/-- Sum of the amounts paid (the `amount` field `AddExpense`/`loadExpenses`
maintain as the running sum of `Participant.Paid`). -/
def sumPaid : List Participant → Int
  | [] => 0
  | x :: rest => x.paid + sumPaid rest

/-- Total surplus above the fair share, used only to budget the loop's fuel. -/
def surplus (avg : Int) : List Participant → Nat
  | [] => 0
  | x :: rest => (x.paid - avg).toNat + surplus avg rest

/-- Fair share per head, as an exact idealization. The source computes
`avg := int(float64(expense.amount)/float64(n) + 0.5)`; whenever that float64
chain rounds exactly it is half-up rounding, i.e. the exact value
`⌊amount/n + 1/2⌋ = ⌊(2*amount + n)/(2*n)⌋` modelled here. The two do NOT
agree on all non-negative totals: `goAvg` below models the float64 chain
itself, and at `amount = 2^52 + 1, n = 1` the program produces `2^52 + 2`
(the `+ 0.5` creates a tie that rounds to even) while `fairShare` gives
`2^52 + 1`. Theorems stated with `fairShare` therefore hold for the exact
half-up fair share, not unconditionally for the program's float64 value. -/
def fairShare (amount : Int) (n : Nat) : Int := (2 * amount + n) / (2 * n)

/-- Base-2 integer logarithm with explicit fuel: `log2Fuel fuel n` is
`⌊log₂ n⌋` whenever `fuel` bounds the number of halvings (any `fuel ≥ n ≥ 1`
does). -/
def log2Fuel : Nat → Nat → Nat
  | 0, _ => 0
  | fuel + 1, n => if 2 ≤ n then log2Fuel fuel (n / 2) + 1 else 0

/-- `⌊log₂ n⌋` for `n ≥ 1` (the fuel `n` always suffices). -/
def natLog2 (n : Nat) : Nat := log2Fuel n n

/-- `2^e` for an integer exponent, as an exact fraction (numerator,
denominator). -/
def pow2Frac (e : Int) : Nat × Nat :=
  if 0 ≤ e then (2 ^ e.toNat, 1) else (1, 2 ^ (-e).toNat)

/-- `⌊log₂ (p/q)⌋` for a positive fraction: the estimate
`⌊log₂ p⌋ - ⌊log₂ q⌋` is exact or one too large, so one comparison against
`2^e0` corrects it. -/
def ilog2Frac (p q : Nat) : Int :=
  let e0 : Int := (natLog2 p : Int) - (natLog2 q : Int)
  let t := pow2Frac e0
  if p * t.2 < t.1 * q then e0 - 1 else e0

/-- Round the non-negative fraction `pm/qm` to the nearest integer, ties to
even (the IEEE-754 default rounding applied to an integer-spaced grid). -/
def roundTiesEven (pm qm : Nat) : Nat :=
  let f := pm / qm
  let r2 := 2 * (pm - f * qm)
  if r2 < qm then f
  else if qm < r2 then f + 1
  else if f % 2 = 0 then f else f + 1

/-- Modelled from the IEEE-754 binary64 semantics Go's `float64` obeys: round
the non-negative exact fraction `p/q` to the nearest binary64 value (53
significant bits, round to nearest, ties to even), returned as an exact
fraction. With `e = ⌊log₂ (p/q)⌋` the representable values around `p/q` are
spaced `2^(e-52)` apart, so the significand `(p/q) / 2^(e-52) ∈ [2^52, 2^53)`
is rounded to the nearest integer with ties to even and scaled back. The
exponent is not clamped, so the model is faithful on the whole normal range
(which covers every value a non-negative `int64` computation can produce) and
ignores only subnormals, overflow and NaN. -/
def roundBin64 (p q : Nat) : Nat × Nat :=
  if p = 0 then (0, 1)
  else
    let e := ilog2Frac p q
    let s := pow2Frac (e - 52)
    let mi := roundTiesEven (p * s.2) (q * s.1)
    (mi * s.1, s.2)

/-- Modelled from the source (`Settle`, line 621) under Go/IEEE-754 binary64
semantics: the fair share `int(float64(expense.amount)/float64(n) + 0.5)`
exactly as the program computes it, for the non-negative totals the claims
quantify over and `n ≥ 1` (with `n = 0` the program divides by zero, which
the claims exclude). Conversion of an integer to `float64` rounds to nearest,
division and addition are correctly rounded (`0.5` is exact), and the final
`int` conversion truncates toward zero. -/
def goAvg (amount : Nat) (n : Nat) : Nat :=
  let fa := roundBin64 amount 1
  let fn := roundBin64 n 1
  let fq := roundBin64 (fa.1 * fn.2) (fa.2 * fn.1)
  let fs := roundBin64 (2 * fq.1 + fq.2) (2 * fq.2)
  fs.1 / fs.2

instance : IsTotal Participant (fun a b => b.paid ≤ a.paid) :=
  ⟨fun a b => le_total b.paid a.paid⟩

instance : IsTrans Participant (fun a b => b.paid ≤ a.paid) :=
  ⟨fun _ _ _ h1 h2 => le_trans h2 h1⟩

/-- Go `sort.Sort(ByAmount(p))`: sort the working copy in descending order of
amount paid (`ByAmount.Less(i, j) = p[i].Paid > p[j].Paid`). `sort.Sort` is
unstable and leaves the order of ties unspecified; insertion sort realizes one
admissible outcome, and the theorems below depend only on sortedness. -/
def sortByPaid (ps : List Participant) : List Participant :=
  List.insertionSort (fun a b => b.paid ≤ a.paid) ps

/-- The greedy two-pointer loop of `Expense.Settle` (source lines 622-644),
with explicit fuel. `i` walks the over-payers from the head, `j` the
under-payers from the tail; a transfer `p[j] -> p[i]` of
`min(avg - p[j].Paid, p[i].Paid - avg)` is recorded and the working amounts are
adjusted; otherwise a pointer advances. -/
def settleLoop (avg : Int) (fuel : Nat) (p : List Participant) (i j : Nat)
    (acc : List Transfer) : List Participant × List Transfer :=
  match fuel with
  | 0 => (p, acc)
  | fuel + 1 =>
    if i < j then
      if avg < (getP p i).paid then
        if (getP p j).paid < avg then
          let a := min (avg - (getP p j).paid) ((getP p i).paid - avg)
          settleLoop avg fuel
            ((p.set j { getP p j with paid := (getP p j).paid + a }).set i
              { getP p i with paid := (getP p i).paid - a })
            i j (acc ++ [{ payer := (getP p j).email, payee := (getP p i).email, amount := a }])
        else settleLoop avg fuel p i (j - 1) acc
      else settleLoop avg fuel p (i + 1) j acc
    else (p, acc)

/-- Fuel budget sufficient for `settleLoop` to run to completion: every
iteration either advances a pointer (at most `length` times) or strictly
decreases the total surplus. -/
def settleFuel (avg : Int) (p : List Participant) : Nat :=
  p.length + surplus avg p + 1

/-- An expenditure event (Go `Expense`): the participant list and the stored
`amount` field, which `AddExpense`/`loadExpenses` maintain as the sum of the
participants' `Paid` values. Date, description and ids play no role in
settlement. -/
structure Expense where
  participants : List Participant
  amount : Int
deriving DecidableEq, Repr

/-- An `Expense` as `Trip.AddExpense` builds it: `amount` is the derived sum of
the amounts paid. -/
def Expense.ofParticipants (ps : List Participant) : Expense :=
  { participants := ps, amount := sumPaid ps }

/-- The fair share `Expense.Settle` computes for this event. -/
def Expense.avg (e : Expense) : Int := fairShare e.amount e.participants.length

/-- The transfers `Expense.Settle` emits, in emission order: sort a working
copy descending by amount paid, then run the two-pointer loop with
`i, j := 0, n-1`. -/
def Expense.settleTransfers (e : Expense) : List Transfer :=
  let q := sortByPaid e.participants
  (settleLoop e.avg (settleFuel e.avg q) q 0 (e.participants.length - 1) []).2

/-- Go `Expense.Settle` (source lines 613-646): the settlement map for one
event, accumulated from the emitted transfers via
`rslt[p[j].Email][p[i].Email] += amount`. -/
def Expense.Settle (e : Expense) : Settlement :=
  e.settleTransfers.foldl accTransfer []

/-- A trip, reduced to the fields `Trip.Complete` reads: the expense list and
the primary key used in the closing UPDATE. -/
structure Trip where
  ID : Int
  Expenses : List Expense
deriving DecidableEq, Repr

/-- All settled transfers of a trip's events, in event order (the enumeration
order within one event's settlement map is fixed by the association list). -/
def tripTransfers (es : List Expense) : List Transfer :=
  (es.map (fun e => settlementEntries e.Settle)).flatten

/-- The initial aggregation state of `Trip.Complete`: empty ledger, empty
seen-pair set. -/
def initState : FoldState := { rslt := [], lookup := [] }

/-- The pure aggregation part of `Trip.Complete` (source lines 663-693): fold
every settled transfer of every event into the ledger with the netting rule. -/
def tripLedger (es : List Expense) : FoldState :=
  (tripTransfers es).foldl foldTransfer initState

/-- A database operation issued by the repository's persistence layer. -/
inductive DBOp where
  | beginTx : DBOp
  | prepare : String → DBOp
  | exec : String → Int → Int → DBOp
  | commit : DBOp
deriving DecidableEq, Repr

/-- The SQL text of the `tripComplete` statement. -/
def tripCompleteSQL : String := "UPDATE trip SET end_date = ?\nWHERE trip_id = ?"

/-- Model of `Trip.Complete` (source lines 660-712), success path: compute the
ledger by the pure fold, then begin a transaction, execute the trip-complete
UPDATE that sets `end_date = now` for this trip, and commit. The returned
trace records the database operations the function itself performs. -/
def Trip.Complete (t : Trip) (now : Int) : FoldState × List DBOp :=
  (tripLedger t.Expenses,
   [DBOp.beginTx, DBOp.prepare tripCompleteSQL,
    DBOp.exec tripCompleteSQL now t.ID, DBOp.commit])

/-- Net directed debt between two identities in a ledger. -/
def netAmt (s : Settlement) (a b : String) : Int := getAmt s a b - getAmt s b a

/-- The signed contribution of one transfer to the net debt of the ordered
pair `(a, b)`. -/
def contrib (t : Transfer) (a b : String) : Int :=
  (if t.payer = a ∧ t.payee = b then t.amount else 0) -
    (if t.payer = b ∧ t.payee = a then t.amount else 0)

/-- Total signed contribution of a transfer list to the net debt of `(a, b)`. -/
def netContrib (ts : List Transfer) (a b : String) : Int :=
  (ts.map (fun t => contrib t a b)).sum

/-- Amount a given identity pays out across a transfer list. -/
def outSum : List Transfer → String → Int
  | [], _ => 0
  | t :: ts, e => (if t.payer = e then t.amount else 0) + outSum ts e

/-- Amount a given identity receives across a transfer list. -/
def inSum : List Transfer → String → Int
  | [], _ => 0
  | t :: ts, e => (if t.payee = e then t.amount else 0) + inSum ts e

/-- Effective contribution of a participant after the transfers `ts`: the
amount originally paid, plus transfers paid out, minus transfers received. -/
def effective (ts : List Transfer) (x : Participant) : Int :=
  x.paid + outSum ts x.email - inSum ts x.email

/-- The netting invariant of the aggregation state: every present ledger entry
is strictly positive, at most one direction of any pair of distinct identities
is present, and every present entry's directed pair is marked in the seen-pair
set. -/
def NettingInv (st : FoldState) : Prop :=
  (∀ p q a, entry? st.rslt p q = some a → 0 < a) ∧
  (∀ p q, p ≠ q → entry? st.rslt p q ≠ none → entry? st.rslt q p = none) ∧
  (∀ p q, entry? st.rslt p q ≠ none → hasKey st.lookup (pairKey p q) = true)

/-! ### Association-list and key-set lemmas -/

theorem alookup_aset_self {β : Type} (m : List (String × β)) (k : String) (v : β) :
    alookup (aset m k v) k = some v := by
  induction m with
  | nil => simp [aset, alookup]
  | cons hd tl ih =>
    obtain ⟨k', w⟩ := hd
    by_cases h : k' = k
    · simp [aset, h, alookup]
    · simp [aset, h, alookup, ih]

theorem alookup_aset_ne {β : Type} (m : List (String × β)) (key k : String) (v : β)
    (h : key ≠ k) : alookup (aset m key v) k = alookup m k := by
  induction m with
  | nil => simp [aset, alookup, h]
  | cons hd tl ih =>
    obtain ⟨k', w⟩ := hd
    by_cases h' : k' = key
    · subst h'; simp [aset, alookup, h]
    · simp [aset, h', alookup, ih]

theorem alookup_adel_self {β : Type} (m : List (String × β)) (k : String) :
    alookup (adel m k) k = none := by
  induction m with
  | nil => simp [adel, alookup]
  | cons hd tl ih =>
    obtain ⟨k', w⟩ := hd
    by_cases h : k' = k
    · simp [adel, h, ih]
    · simp [adel, h, alookup, ih]

theorem alookup_adel_ne {β : Type} (m : List (String × β)) (key k : String)
    (h : key ≠ k) : alookup (adel m key) k = alookup m k := by
  induction m with
  | nil => simp [adel]
  | cons hd tl ih =>
    obtain ⟨k', w⟩ := hd
    by_cases h' : k' = key
    · subst h'; simp [adel, alookup, h, ih]
    · simp [adel, h', alookup, ih]

theorem alookup_mem {β : Type} (m : List (String × β)) (k : String) (v : β)
    (h : alookup m k = some v) : (k, v) ∈ m := by
  induction m with
  | nil => simp [alookup] at h
  | cons hd tl ih =>
    obtain ⟨k', w⟩ := hd
    by_cases h' : k' = k
    · subst h'
      simp [alookup] at h
      subst h; exact List.mem_cons_self _ _
    · simp only [alookup, if_neg h'] at h
      exact List.mem_cons_of_mem _ (ih h)

theorem mem_aset {β : Type} (m : List (String × β)) (k : String) (v : β)
    (x : String × β) (h : x ∈ aset m k v) : x = (k, v) ∨ x ∈ m := by
  induction m with
  | nil => simpa [aset] using h
  | cons hd tl ih =>
    obtain ⟨k', w⟩ := hd
    by_cases h' : k' = k
    · subst h'
      rw [show aset ((k', w) :: tl) k' v = (k', v) :: tl from by simp [aset]] at h
      rcases List.mem_cons.mp h with h2 | h2
      · exact Or.inl h2
      · exact Or.inr (List.mem_cons_of_mem _ h2)
    · simp only [aset, if_neg h', List.mem_cons] at h
      rcases h with h | h
      · exact Or.inr (by simp [h])
      · rcases ih h with h2 | h2
        · exact Or.inl h2
        · exact Or.inr (List.mem_cons_of_mem _ h2)

theorem mem_adel {β : Type} (m : List (String × β)) (k : String)
    (x : String × β) (h : x ∈ adel m k) : x ∈ m := by
  induction m with
  | nil => simpa [adel] using h
  | cons hd tl ih =>
    obtain ⟨k', w⟩ := hd
    by_cases h' : k' = k
    · simp only [adel, if_pos h'] at h
      exact List.mem_cons_of_mem _ (ih h)
    · simp only [adel, if_neg h', List.mem_cons] at h
      rcases h with h | h
      · simp [h]
      · exact List.mem_cons_of_mem _ (ih h)

theorem hasKey_append (l l' : List String) (k : String) :
    hasKey (l ++ l') k = (hasKey l k || hasKey l' k) := by
  induction l with
  | nil => simp [hasKey]
  | cons x rest ih =>
    by_cases h : x = k
    · simp [hasKey, h]
    · simp [hasKey, h, ih]

theorem hasKey_addKey_self (l : List String) (k : String) :
    hasKey (addKey l k) k = true := by
  unfold addKey
  by_cases h : hasKey l k
  · simp [h]
  · simp [h, hasKey_append, hasKey]

theorem hasKey_addKey_ne (l : List String) (key k : String) (h : key ≠ k) :
    hasKey (addKey l key) k = hasKey l k := by
  unfold addKey
  by_cases h' : hasKey l key
  · simp [h']
  · simp [h', hasKey_append, hasKey, h]

theorem hasKey_delKey_self (l : List String) (k : String) :
    hasKey (delKey l k) k = false := by
  induction l with
  | nil => simp [delKey, hasKey]
  | cons x rest ih =>
    by_cases h : x = k
    · simp [delKey, h, ih]
    · simp [delKey, h, hasKey, ih]

theorem hasKey_delKey_ne (l : List String) (key k : String) (h : key ≠ k) :
    hasKey (delKey l key) k = hasKey l k := by
  induction l with
  | nil => simp [delKey]
  | cons x rest ih =>
    by_cases h' : x = key
    · have hkk : ¬(key = k) := h
      simp [delKey, h', hasKey, hkk, ih]
    · simp [delKey, h', hasKey, ih]

/-! ### Injectivity of the seen-pair key on separator-free identities -/

theorem sep_split_inj (a : List Char) (b : List Char) (c : List Char) (d : List Char)
    (ha : '>' ∉ a) (hc : '>' ∉ c) (h : a ++ '>' :: b = c ++ '>' :: d) :
    a = c ∧ b = d := by
  induction a generalizing c with
  | nil =>
    cases c with
    | nil => simpa using h
    | cons y cs =>
      simp only [List.nil_append, List.cons_append, List.cons.injEq] at h
      have : '>' ∈ y :: cs := by rw [← h.1]; exact List.mem_cons_self _ _
      exact absurd this hc
  | cons x as ih =>
    cases c with
    | nil =>
      simp only [List.cons_append, List.nil_append, List.cons.injEq] at h
      have : '>' ∈ x :: as := by rw [h.1]; exact List.mem_cons_self _ _
      exact absurd this ha
    | cons y cs =>
      simp only [List.cons_append, List.cons.injEq] at h
      have ha' : '>' ∉ as := fun hm => ha (List.mem_cons_of_mem _ hm)
      have hc' : '>' ∉ cs := fun hm => hc (List.mem_cons_of_mem _ hm)
      obtain ⟨h1, h2⟩ := ih cs ha' hc' h.2
      exact ⟨by rw [h.1, h1], h2⟩

theorem pairKey_data (a b : String) :
    (pairKey a b).data = a.data ++ '>' :: b.data := by
  show (a ++ ">" ++ b).data = _
  rw [String.data_append, String.data_append, List.append_assoc]
  rfl

theorem pairKey_inj {a b c d : String} (ha : sepFree a) (hc : sepFree c)
    (h : pairKey a b = pairKey c d) : a = c ∧ b = d := by
  have hdata : (pairKey a b).data = (pairKey c d).data := by rw [h]
  rw [pairKey_data, pairKey_data] at hdata
  obtain ⟨h1, h2⟩ := sep_split_inj a.data b.data c.data d.data ha hc hdata
  exact ⟨String.ext h1, String.ext h2⟩

/-! ### Indexing, sum and surplus lemmas for the working slice -/

theorem getP_set_self (l : List Participant) (m : Nat) (x : Participant)
    (h : m < l.length) : getP (l.set m x) m = x := by
  induction l generalizing m with
  | nil => simp at h
  | cons hd tl ih =>
    cases m with
    | zero => simp [List.set, getP]
    | succ m => simpa [List.set, getP] using ih m (by simpa using h)

theorem getP_set_ne (l : List Participant) (m k : Nat) (x : Participant)
    (h : k ≠ m) : getP (l.set m x) k = getP l k := by
  induction l generalizing m k with
  | nil => simp [List.set]
  | cons hd tl ih =>
    cases m with
    | zero =>
      cases k with
      | zero => exact absurd rfl h
      | succ k => simp [List.set, getP]
    | succ m =>
      cases k with
      | zero => simp [List.set, getP]
      | succ k => simpa [List.set, getP] using ih m k (fun hh => h (by rw [hh]))

theorem getP_mem (l : List Participant) (k : Nat) (h : k < l.length) :
    getP l k ∈ l := by
  induction l generalizing k with
  | nil => simp at h
  | cons hd tl ih =>
    cases k with
    | zero => simp [getP]
    | succ k => exact List.mem_cons_of_mem _ (ih k (by simpa using h))

theorem mem_iff_getP (l : List Participant) (x : Participant) :
    x ∈ l ↔ ∃ k, k < l.length ∧ getP l k = x := by
  constructor
  · intro h
    induction l with
    | nil => simp at h
    | cons hd tl ih =>
      rcases List.mem_cons.mp h with h | h
      · exact ⟨0, by simp [getP, h]⟩
      · obtain ⟨k, hk, he⟩ := ih h
        exact ⟨k + 1, by simpa using hk, by simpa [getP] using he⟩
  · rintro ⟨k, hk, rfl⟩
    exact getP_mem l k hk

theorem sumPaid_set (l : List Participant) (m : Nat) (x : Participant)
    (h : m < l.length) :
    sumPaid (l.set m x) = sumPaid l + x.paid - (getP l m).paid := by
  induction l generalizing m with
  | nil => simp at h
  | cons hd tl ih =>
    cases m with
    | zero => simp [List.set, sumPaid, getP]; ring
    | succ m =>
      have := ih m (by simpa using h)
      simp [List.set, sumPaid, getP, this]; ring

theorem surplus_set (avg : Int) (l : List Participant) (m : Nat) (x : Participant)
    (h : m < l.length) :
    surplus avg (l.set m x) + ((getP l m).paid - avg).toNat
      = surplus avg l + (x.paid - avg).toNat := by
  induction l generalizing m with
  | nil => simp at h
  | cons hd tl ih =>
    cases m with
    | zero => simp [List.set, surplus, getP]; ring
    | succ m =>
      have := ih m (by simpa using h)
      simp [List.set, surplus, getP]; omega

theorem outSum_append (ts us : List Transfer) (e : String) :
    outSum (ts ++ us) e = outSum ts e + outSum us e := by
  induction ts with
  | nil => simp [outSum]
  | cons t ts ih => simp [outSum, ih]; ring

theorem inSum_append (ts us : List Transfer) (e : String) :
    inSum (ts ++ us) e = inSum ts e + inSum us e := by
  induction ts with
  | nil => simp [inSum]
  | cons t ts ih => simp [inSum, ih]; ring

theorem outSum_single (t : Transfer) (e : String) :
    outSum [t] e = if t.payer = e then t.amount else 0 := by
  simp [outSum]

theorem inSum_single (t : Transfer) (e : String) :
    inSum [t] e = if t.payee = e then t.amount else 0 := by
  simp [inSum]

/-! ### Unfolding equations for the two-pointer loop -/

theorem settleLoop_end (avg : Int) (fuel : Nat) (p : List Participant)
    (i j : Nat) (acc : List Transfer) (h : ¬ i < j) :
    settleLoop avg (fuel + 1) p i j acc = (p, acc) := by
  simp [settleLoop, h]

theorem settleLoop_adv_i (avg : Int) (fuel : Nat) (p : List Participant)
    (i j : Nat) (acc : List Transfer) (h : i < j)
    (h2 : ¬ avg < (getP p i).paid) :
    settleLoop avg (fuel + 1) p i j acc = settleLoop avg fuel p (i + 1) j acc := by
  simp [settleLoop, h, h2]

theorem settleLoop_adv_j (avg : Int) (fuel : Nat) (p : List Participant)
    (i j : Nat) (acc : List Transfer) (h : i < j)
    (h2 : avg < (getP p i).paid) (h3 : ¬ (getP p j).paid < avg) :
    settleLoop avg (fuel + 1) p i j acc = settleLoop avg fuel p i (j - 1) acc := by
  simp [settleLoop, h, h2, h3]

theorem settleLoop_step (avg : Int) (fuel : Nat) (p : List Participant)
    (i j : Nat) (acc : List Transfer) (h : i < j)
    (h2 : avg < (getP p i).paid) (h3 : (getP p j).paid < avg) :
    settleLoop avg (fuel + 1) p i j acc =
      settleLoop avg fuel
        ((p.set j { getP p j with
            paid := (getP p j).paid + min (avg - (getP p j).paid) ((getP p i).paid - avg) }).set i
          { getP p i with
            paid := (getP p i).paid - min (avg - (getP p j).paid) ((getP p i).paid - avg) })
        i j
        (acc ++ [{ payer := (getP p j).email, payee := (getP p i).email,
                   amount := min (avg - (getP p j).paid) ((getP p i).paid - avg) }]) := by
  simp [settleLoop, h, h2, h3]

/-! ### The loop invariant of the settlement loop -/

/-- The slice `q` is sorted in descending order of amount paid. -/
def SortedDesc (q : List Participant) : Prop :=
  ∀ k l, k ≤ l → l < q.length → (getP q l).paid ≤ (getP q k).paid

/-- All identities in the slice `q` are pairwise distinct. -/
def DistinctEmails (q : List Participant) : Prop :=
  ∀ k l, k < q.length → l < q.length → k ≠ l → (getP q k).email ≠ (getP q l).email

/-- Invariant of `settleLoop` relative to the initial (sorted) slice `q`:
positions left of `i` hold at most the fair share and were either filled to
exactly the share or never touched; positions right of `j` hold at least the
share and were either drained to exactly the share or never touched; interior
positions are untouched; the pointer positions were only moved toward the
share; and every position's amount equals its initial amount adjusted by the
transfers accumulated so far. -/
structure LoopInv (avg : Int) (q p : List Participant) (i j : Nat)
    (acc : List Transfer) : Prop where
  hlen : p.length = q.length
  hij : i ≤ j
  hjn : j < q.length
  hmail : ∀ k, (getP p k).email = (getP q k).email
  hsum : sumPaid p = sumPaid q
  hleft : ∀ k, k < i → (getP p k).paid ≤ avg ∧
    (avg ≤ (getP p k).paid ∨ (getP p k).paid = (getP q k).paid)
  hright : ∀ l, j < l → l < q.length → avg ≤ (getP p l).paid ∧
    ((getP p l).paid ≤ avg ∨ (getP p l).paid = (getP q l).paid)
  hmid : ∀ k, i < k → k < j → (getP p k).paid = (getP q k).paid
  hi : i < j → (getP p i).paid ≤ (getP q i).paid ∧
    (avg ≤ (getP p i).paid ∨ (getP p i).paid = (getP q i).paid)
  hj : i < j → (getP q j).paid ≤ (getP p j).paid ∧
    ((getP p j).paid ≤ avg ∨ (getP p j).paid = (getP q j).paid)
  hmeet : i = j →
    ((getP p i).paid ≤ (getP q i).paid ∧
      (avg ≤ (getP p i).paid ∨ (getP p i).paid = (getP q i).paid)) ∨
    ((getP q i).paid ≤ (getP p i).paid ∧
      ((getP p i).paid ≤ avg ∨ (getP p i).paid = (getP q i).paid))
  hlink : ∀ k, k < q.length → (getP p k).paid
    = (getP q k).paid + outSum acc (getP q k).email - inSum acc (getP q k).email

/-- When the pointers have met, all residual amounts lie on one side of the
fair share: either nobody holds more than `avg`, or nobody holds less. -/
theorem endState (avg : Int) (q p : List Participant) (m : Nat)
    (acc : List Transfer) (HS : SortedDesc q)
    (inv : LoopInv avg q p m m acc) :
    (∀ k, k < q.length → (getP p k).paid ≤ avg) ∨
    (∀ k, k < q.length → avg ≤ (getP p k).paid) := by
  by_cases hex : ∃ k, k < m ∧ (getP p k).paid < avg
  · left
    obtain ⟨k0, hk0, hk0lt⟩ := hex
    have h0 := inv.hleft k0 hk0
    have hq0 : (getP q k0).paid < avg := by
      rcases h0.2 with h | h
      · omega
      · omega
    intro k hk
    rcases Nat.lt_trichotomy k m with hkm | hkm | hkm
    · exact (inv.hleft k hkm).1
    · subst hkm
      have hqs : (getP q k).paid ≤ (getP q k0).paid :=
        HS k0 k (Nat.le_of_lt hk0) hk
      rcases inv.hmeet rfl with ⟨h1, _⟩ | ⟨_, h2⟩
      · omega
      · rcases h2 with h2 | h2
        · exact h2
        · omega
    · have hr := inv.hright k hkm hk
      rcases hr.2 with h2 | h2
      · exact h2
      · have hqs : (getP q k).paid ≤ (getP q k0).paid :=
          HS k0 k (by omega) hk
        omega
  · by_cases hex2 : ∃ l, m < l ∧ l < q.length ∧ avg < (getP p l).paid
    · right
      obtain ⟨l0, hl0, hl0n, hl0gt⟩ := hex2
      have h0 := inv.hright l0 hl0 hl0n
      have hq0 : avg < (getP q l0).paid := by
        rcases h0.2 with h | h
        · omega
        · omega
      intro k hk
      rcases Nat.lt_trichotomy k m with hkm | hkm | hkm
      · have hl := inv.hleft k hkm
        rcases hl.2 with h2 | h2
        · exact h2
        · have hqs : (getP q l0).paid ≤ (getP q k).paid :=
            HS k l0 (by omega) hl0n
          omega
      · subst hkm
        have hqs : (getP q l0).paid ≤ (getP q k).paid :=
          HS k l0 (Nat.le_of_lt hl0) hl0n
        rcases inv.hmeet rfl with ⟨_, h2⟩ | ⟨h1, _⟩
        · rcases h2 with h2 | h2
          · exact h2
          · omega
        · omega
      · exact (inv.hright k hkm hk).1
    · push_neg at hex hex2
      by_cases hm : (getP p m).paid ≤ avg
      · left
        intro k hk
        rcases Nat.lt_trichotomy k m with hkm | hkm | hkm
        · exact (inv.hleft k hkm).1
        · subst hkm; exact hm
        · exact hex2 k hkm hk
      · right
        intro k hk
        rcases Nat.lt_trichotomy k m with hkm | hkm | hkm
        · exact hex k hkm
        · subst hkm; omega
        · exact (inv.hright k hkm hk).1

/-- Advancing the head pointer preserves the invariant. -/
theorem inv_adv_i (avg : Int) (q p : List Participant) (i j : Nat)
    (acc : List Transfer) (inv : LoopInv avg q p i j acc) (hij : i < j)
    (h2 : ¬ avg < (getP p i).paid) : LoopInv avg q p (i + 1) j acc := by
  refine ⟨inv.hlen, hij, inv.hjn, inv.hmail, inv.hsum, ?_, inv.hright, ?_, ?_, ?_, ?_, inv.hlink⟩
  · intro k hk
    rcases Nat.lt_or_ge k i with hki | hki
    · exact inv.hleft k hki
    · have hk : k = i := by omega
      subst hk
      exact ⟨by omega, (inv.hi hij).2⟩
  · intro k h1 h2
    exact inv.hmid k (by omega) h2
  · intro hlt
    have := inv.hmid (i + 1) (by omega) hlt
    exact ⟨le_of_eq this, Or.inr this⟩
  · intro hlt
    exact inv.hj hij
  · intro heq
    have := inv.hj hij
    rw [← heq] at this
    exact Or.inr this

/-- Advancing the tail pointer preserves the invariant. -/
theorem inv_adv_j (avg : Int) (q p : List Participant) (i j : Nat)
    (acc : List Transfer) (inv : LoopInv avg q p i j acc) (hij : i < j)
    (h2 : avg < (getP p i).paid) (h3 : ¬ (getP p j).paid < avg) :
    LoopInv avg q p i (j - 1) acc := by
  refine ⟨inv.hlen, by omega, by have := inv.hjn; omega, inv.hmail, inv.hsum,
    inv.hleft, ?_, ?_, ?_, ?_, ?_, inv.hlink⟩
  · intro l h1 hl
    rcases Nat.lt_or_ge j l with hjl | hjl
    · exact inv.hright l hjl hl
    · have hl2 : l = j := by omega
      subst hl2
      exact ⟨by omega, (inv.hj hij).2⟩
  · intro k h1 hk
    exact inv.hmid k h1 (by omega)
  · intro hlt
    exact inv.hi hij
  · intro hlt
    have := inv.hmid (j - 1) hlt (by omega)
    exact ⟨le_of_eq this.symm, Or.inr this⟩
  · intro heq
    exact Or.inl (inv.hi hij)

/-- Recording a transfer and adjusting the two pointer positions preserves the
invariant. -/
theorem inv_transfer (avg : Int) (q p : List Participant) (i j : Nat)
    (acc : List Transfer) (HD : DistinctEmails q)
    (inv : LoopInv avg q p i j acc) (hij : i < j)
    (h2 : avg < (getP p i).paid) (h3 : (getP p j).paid < avg) :
    LoopInv avg q
      ((p.set j { getP p j with
          paid := (getP p j).paid + min (avg - (getP p j).paid) ((getP p i).paid - avg) }).set i
        { getP p i with
          paid := (getP p i).paid - min (avg - (getP p j).paid) ((getP p i).paid - avg) })
      i j
      (acc ++ [{ payer := (getP p j).email, payee := (getP p i).email,
                 amount := min (avg - (getP p j).paid) ((getP p i).paid - avg) }]) := by
  set a : Int := min (avg - (getP p j).paid) ((getP p i).paid - avg) with ha
  set t : Transfer := { payer := (getP p j).email, payee := (getP p i).email, amount := a }
  set p1 : List Participant :=
    p.set j { getP p j with paid := (getP p j).paid + a } with hp1
  set p2 : List Participant :=
    p1.set i { getP p i with paid := (getP p i).paid - a } with hp2
  have hjn : j < q.length := inv.hjn
  have hiltp : i < p.length := by rw [inv.hlen]; omega
  have hjltp : j < p.length := by rw [inv.hlen]; exact inv.hjn
  have hiltp1 : i < p1.length := by simpa [hp1] using hiltp
  have hne : i ≠ j := by omega
  have ha1 : 1 ≤ a := le_min (by omega) (by omega)
  have hamin1 : a ≤ avg - (getP p j).paid := min_le_left _ _
  have hamin2 : a ≤ (getP p i).paid - avg := min_le_right _ _
  -- pointwise description of the updated slice
  have hg2i : getP p2 i = { getP p i with paid := (getP p i).paid - a } := by
    rw [hp2]; exact getP_set_self p1 i _ hiltp1
  have hg2j : getP p2 j = { getP p j with paid := (getP p j).paid + a } := by
    rw [hp2, getP_set_ne p1 i j _ (fun hh => hne hh.symm), hp1]
    exact getP_set_self p j _ hjltp
  have hg2other : ∀ k, k ≠ i → k ≠ j → getP p2 k = getP p k := by
    intro k hki hkj
    rw [hp2, getP_set_ne p1 i k _ hki, hp1, getP_set_ne p j k _ hkj]
  have hg2paid : ∀ k, k ≠ i → k ≠ j → (getP p2 k).paid = (getP p k).paid := by
    intro k hki hkj; rw [hg2other k hki hkj]
  refine ⟨?_, inv.hij, inv.hjn, ?_, ?_, ?_, ?_, ?_, ?_, ?_, ?_, ?_⟩
  · rw [hp2, hp1]; simpa using inv.hlen
  · intro k
    by_cases hki : k = i
    · subst hki; rw [hg2i]; exact inv.hmail k
    · by_cases hkj : k = j
      · subst hkj; rw [hg2j]; exact inv.hmail k
      · rw [hg2other k hki hkj]; exact inv.hmail k
  · have hs1 : sumPaid p1 = sumPaid p + a := by
      rw [hp1, sumPaid_set p j _ hjltp]
      show sumPaid p + ((getP p j).paid + a) - (getP p j).paid = _
      ring
    have hgp1i : getP p1 i = getP p i := by
      rw [hp1]; exact getP_set_ne p j i _ hne
    have hs2 : sumPaid p2 = sumPaid p1 - a := by
      rw [hp2, sumPaid_set p1 i _ hiltp1, hgp1i]
      show sumPaid p1 + ((getP p i).paid - a) - (getP p i).paid = _
      ring
    rw [hs2, hs1, inv.hsum]; ring
  · intro k hk
    have hki : k ≠ i := by omega
    have hkj : k ≠ j := by omega
    rw [hg2other k hki hkj]; exact inv.hleft k hk
  · intro l h1 hl
    have hli : l ≠ i := by omega
    have hlj : l ≠ j := by omega
    rw [hg2other l hli hlj]; exact inv.hright l h1 hl
  · intro k h1 hk
    have hki : k ≠ i := by omega
    have hkj : k ≠ j := by omega
    rw [hg2paid k hki hkj]; exact inv.hmid k h1 hk
  · intro _
    rw [hg2i]
    have h1 := (inv.hi hij).1
    constructor
    · show (getP p i).paid - a ≤ (getP q i).paid
      omega
    · exact Or.inl (show avg ≤ (getP p i).paid - a by omega)
  · intro _
    rw [hg2j]
    have h1 := (inv.hj hij).1
    constructor
    · show (getP q j).paid ≤ (getP p j).paid + a
      omega
    · exact Or.inl (show (getP p j).paid + a ≤ avg by omega)
  · intro heq; exact absurd heq hne
  · intro k hk
    have hmaili : (getP p i).email = (getP q i).email := inv.hmail i
    have hmailj : (getP p j).email = (getP q j).email := inv.hmail j
    have htpayer : t.payer = (getP q j).email := hmailj
    have htpayee : t.payee = (getP q i).email := hmaili
    by_cases hki : k = i
    · subst hki
      rw [hg2i]
      have hout : outSum (acc ++ [t]) (getP q k).email = outSum acc (getP q k).email := by
        rw [outSum_append, outSum_single, htpayer,
          if_neg (HD j k inv.hjn hk (fun hh => hne hh.symm))]
        ring
      have hin : inSum (acc ++ [t]) (getP q k).email
          = inSum acc (getP q k).email + a := by
        rw [inSum_append, inSum_single, htpayee, if_pos rfl]
      show (getP p k).paid - a
          = (getP q k).paid + outSum (acc ++ [t]) (getP q k).email
            - inSum (acc ++ [t]) (getP q k).email
      rw [hout, hin, inv.hlink k hk]
      ring
    · by_cases hkj : k = j
      · subst hkj
        rw [hg2j]
        have hout : outSum (acc ++ [t]) (getP q k).email
            = outSum acc (getP q k).email + a := by
          rw [outSum_append, outSum_single, htpayer, if_pos rfl]
        have hin : inSum (acc ++ [t]) (getP q k).email = inSum acc (getP q k).email := by
          rw [inSum_append, inSum_single, htpayee,
            if_neg (HD i k (by omega) hk hne)]
          ring
        show (getP p k).paid + a
            = (getP q k).paid + outSum (acc ++ [t]) (getP q k).email
              - inSum (acc ++ [t]) (getP q k).email
        rw [hout, hin, inv.hlink k hk]
        ring
      · rw [hg2other k hki hkj]
        have hout : outSum (acc ++ [t]) (getP q k).email = outSum acc (getP q k).email := by
          rw [outSum_append, outSum_single, htpayer,
            if_neg (HD j k inv.hjn hk (fun hh => hkj hh.symm))]
          ring
        have hin : inSum (acc ++ [t]) (getP q k).email = inSum acc (getP q k).email := by
          rw [inSum_append, inSum_single, htpayee,
            if_neg (HD i k (by omega) hk (fun hh => hki hh.symm))]
          ring
        rw [hout, hin]
        exact inv.hlink k hk

/-- A transfer strictly decreases the total surplus, so the fuel budget keeps
pace with the loop. -/
theorem surplus_transfer (avg : Int) (p : List Participant) (i j : Nat)
    (hip : i < p.length) (hjp : j < p.length) (hne : i ≠ j)
    (h2 : avg < (getP p i).paid) (h3 : (getP p j).paid < avg) :
    surplus avg
      ((p.set j { getP p j with
          paid := (getP p j).paid + min (avg - (getP p j).paid) ((getP p i).paid - avg) }).set i
        { getP p i with
          paid := (getP p i).paid - min (avg - (getP p j).paid) ((getP p i).paid - avg) })
      < surplus avg p := by
  set a : Int := min (avg - (getP p j).paid) ((getP p i).paid - avg) with ha
  have ha1 : 1 ≤ a := le_min (by omega) (by omega)
  have hamin2 : a ≤ (getP p i).paid - avg := min_le_right _ _
  set yj : Participant := { getP p j with paid := (getP p j).paid + a } with hyj
  set xi : Participant := { getP p i with paid := (getP p i).paid - a } with hxi
  have hyjp : yj.paid = (getP p j).paid + a := rfl
  have hxip : xi.paid = (getP p i).paid - a := rfl
  have hs1 := surplus_set avg p j yj hjp
  rw [hyjp] at hs1
  have hip1 : i < (p.set j yj).length := by simpa using hip
  have hs2 := surplus_set avg (p.set j yj) i xi hip1
  rw [hxip, getP_set_ne p j i yj hne] at hs2
  have ht1 : ((getP p j).paid - avg).toNat = 0 := by omega
  have ht2 : ((getP p j).paid + a - avg).toNat = 0 := by omega
  have ht3 : ((getP p i).paid - avg).toNat = ((getP p i).paid - avg).toNat := rfl
  omega

/-- The postcondition of the settlement loop relative to the initial sorted
slice `q`: lengths and identities are unchanged, the total amount is conserved,
the residual amounts all lie on one side of the fair share, and every
position's final amount is its initial amount plus what it pays out minus what
it receives across the emitted transfers. -/
def SettlePost (avg : Int) (q : List Participant)
    (r : List Participant × List Transfer) : Prop :=
  r.1.length = q.length ∧
  (∀ k, (getP r.1 k).email = (getP q k).email) ∧
  sumPaid r.1 = sumPaid q ∧
  ((∀ k, k < q.length → (getP r.1 k).paid ≤ avg) ∨
   (∀ k, k < q.length → avg ≤ (getP r.1 k).paid)) ∧
  (∀ k, k < q.length → (getP r.1 k).paid
    = (getP q k).paid + outSum r.2 (getP q k).email - inSum r.2 (getP q k).email)

/-- Main loop theorem: from any state satisfying the invariant, with enough
fuel, the loop terminates in a state satisfying the postcondition. -/
theorem settleLoop_main (avg : Int) (q : List Participant) (HS : SortedDesc q)
    (HD : DistinctEmails q) :
    ∀ fuel p i j acc, LoopInv avg q p i j acc →
      (j - i) + surplus avg p + 1 ≤ fuel →
      SettlePost avg q (settleLoop avg fuel p i j acc) := by
  intro fuel
  induction fuel with
  | zero => intro p i j acc inv hfuel; omega
  | succ fuel ih =>
    intro p i j acc inv hfuel
    by_cases hij : i < j
    · by_cases h2 : avg < (getP p i).paid
      · by_cases h3 : (getP p j).paid < avg
        · rw [settleLoop_step avg fuel p i j acc hij h2 h3]
          apply ih _ i j _ (inv_transfer avg q p i j acc HD inv hij h2 h3)
          have hjp : j < p.length := by rw [inv.hlen]; exact inv.hjn
          have hip : i < p.length := by omega
          have := surplus_transfer avg p i j hip hjp (by omega) h2 h3
          omega
        · rw [settleLoop_adv_j avg fuel p i j acc hij h2 h3]
          apply ih _ i (j - 1) _ (inv_adv_j avg q p i j acc inv hij h2 h3)
          omega
      · rw [settleLoop_adv_i avg fuel p i j acc hij h2]
        apply ih _ (i + 1) j _ (inv_adv_i avg q p i j acc inv hij h2)
        omega
    · rw [settleLoop_end avg fuel p i j acc hij]
      have him : i = j := by have := inv.hij; omega
      subst him
      exact ⟨inv.hlen, inv.hmail, inv.hsum, endState avg q p i acc HS inv, inv.hlink⟩

/-! ### From the sorted working copy back to the original participant list -/

theorem getP_eq_get (l : List Participant) (k : Nat) (h : k < l.length) :
    getP l k = l.get ⟨k, h⟩ := by
  induction l generalizing k with
  | nil => simp at h
  | cons hd tl ih =>
    cases k with
    | zero => rfl
    | succ k => exact ih k (by simpa using h)

theorem sumPaid_eq_map_sum (l : List Participant) :
    sumPaid l = (l.map (fun x => x.paid)).sum := by
  induction l with
  | nil => rfl
  | cons hd tl ih => simp [sumPaid, ih]

theorem sortByPaid_perm (ps : List Participant) : (sortByPaid ps).Perm ps :=
  List.perm_insertionSort _ ps

theorem sortByPaid_length (ps : List Participant) :
    (sortByPaid ps).length = ps.length :=
  (sortByPaid_perm ps).length_eq

theorem sortByPaid_sumPaid (ps : List Participant) :
    sumPaid (sortByPaid ps) = sumPaid ps := by
  rw [sumPaid_eq_map_sum, sumPaid_eq_map_sum]
  exact ((sortByPaid_perm ps).map _).sum_eq

theorem sortByPaid_sorted (ps : List Participant) : SortedDesc (sortByPaid ps) := by
  have h := List.sorted_insertionSort (fun a b : Participant => b.paid ≤ a.paid) ps
  intro k l hkl hl
  rcases Nat.eq_or_lt_of_le hkl with heq | hlt
  · subst heq; exact le_refl _
  · have hk : k < (sortByPaid ps).length := by omega
    have hp := List.pairwise_iff_get.mp h ⟨k, hk⟩ ⟨l, hl⟩ hlt
    rw [getP_eq_get _ _ hl, getP_eq_get _ _ hk]
    exact hp

theorem distinctEmails_of_nodup (q : List Participant)
    (h : (q.map (fun x => x.email)).Nodup) : DistinctEmails q := by
  intro k l hk hl hkl
  induction q generalizing k l with
  | nil => simp at hk
  | cons hd tl ih =>
    rw [List.map_cons, List.nodup_cons] at h
    cases k with
    | zero =>
      cases l with
      | zero => exact absurd rfl hkl
      | succ l =>
        show hd.email ≠ (getP tl l).email
        intro heq
        exact h.1 (heq ▸ List.mem_map_of_mem _ (getP_mem tl l (by simpa using hl)))
    | succ k =>
      cases l with
      | zero =>
        show (getP tl k).email ≠ hd.email
        intro heq
        exact h.1 (heq ▸ List.mem_map_of_mem _ (getP_mem tl k (by simpa using hk)))
      | succ l =>
        exact ih h.2 k l (by simpa using hk) (by simpa using hl)
          (fun hh => hkl (by rw [hh]))

/-- The invariant holds at loop entry. -/
theorem loopInv_init (avg : Int) (q : List Participant) (hq : q ≠ []) :
    LoopInv avg q q 0 (q.length - 1) [] := by
  have hlen : 0 < q.length := List.length_pos.mpr hq
  refine ⟨rfl, by omega, by omega, fun k => rfl, rfl, ?_, ?_, ?_, ?_, ?_, ?_, ?_⟩
  · intro k hk; exact absurd hk (Nat.not_lt_zero k)
  · intro l h1 h2; omega
  · intro k _ _; rfl
  · intro _; exact ⟨le_refl _, Or.inr rfl⟩
  · intro _; exact ⟨le_refl _, Or.inr rfl⟩
  · intro _; exact Or.inl ⟨le_refl _, Or.inr rfl⟩
  · intro k _; simp [outSum, inSum]

/-- The fair share approximates the exact mean: `n` times the half-up rounded
share differs from the total by at most `n - 1` cents (in fact by at most
`n/2`). -/
theorem fairShare_close (t : Int) (n : Nat) (hn : 1 ≤ n) :
    t - (n : Int) * fairShare t n ≤ (n : Int) - 1 ∧
    -((n : Int) - 1) ≤ t - (n : Int) * fairShare t n := by
  unfold fairShare
  have hb : (0 : Int) < 2 * (n : Int) := by
    have : (1 : Int) ≤ (n : Int) := by exact_mod_cast hn
    omega
  have hq := Int.ediv_add_emod (2 * t + (n : Int)) (2 * (n : Int))
  have hr0 : 0 ≤ (2 * t + (n : Int)) % (2 * (n : Int)) :=
    Int.emod_nonneg _ (by omega)
  have hrb : (2 * t + (n : Int)) % (2 * (n : Int)) < 2 * (n : Int) :=
    Int.emod_lt_of_pos _ hb
  have hx : 2 * (n : Int) * ((2 * t + (n : Int)) / (2 * (n : Int)))
      = 2 * ((n : Int) * ((2 * t + (n : Int)) / (2 * (n : Int)))) := by ring
  rw [hx] at hq
  generalize hX : (n : Int) * ((2 * t + (n : Int)) / (2 * (n : Int))) = X at hq ⊢
  generalize hR : (2 * t + (n : Int)) % (2 * (n : Int)) = R at hq hr0 hrb
  omega

/-- Absolute deviations sum to the total deviation when every amount is at most
the share. -/
theorem absSum_all_le (avg : Int) (l : List Participant)
    (h : ∀ x ∈ l, x.paid ≤ avg) :
    (l.map (fun x => |x.paid - avg|)).sum = (l.length : Int) * avg - sumPaid l := by
  induction l with
  | nil => simp [sumPaid]
  | cons hd tl ih =>
    have hh := h hd (List.mem_cons_self _ _)
    have ht := ih (fun x hx => h x (List.mem_cons_of_mem _ hx))
    rw [List.map_cons, List.sum_cons, ht, abs_of_nonpos (by omega)]
    simp [sumPaid]
    push_cast
    ring

/-- Absolute deviations sum to the total deviation when every amount is at
least the share. -/
theorem absSum_all_ge (avg : Int) (l : List Participant)
    (h : ∀ x ∈ l, avg ≤ x.paid) :
    (l.map (fun x => |x.paid - avg|)).sum = sumPaid l - (l.length : Int) * avg := by
  induction l with
  | nil => simp [sumPaid]
  | cons hd tl ih =>
    have hh := h hd (List.mem_cons_self _ _)
    have ht := ih (fun x hx => h x (List.mem_cons_of_mem _ hx))
    rw [List.map_cons, List.sum_cons, ht, abs_of_nonneg (by omega)]
    simp [sumPaid]
    push_cast
    ring

/-- Two participant lists of the same length with pointwise-related entries
have equal maps. -/
theorem map_congr_getP {β : Type} (f g : Participant → β)
    (l1 l2 : List Participant) (hlen : l1.length = l2.length)
    (h : ∀ k, k < l1.length → f (getP l1 k) = g (getP l2 k)) :
    l1.map f = l2.map g := by
  induction l1 generalizing l2 with
  | nil =>
    cases l2 with
    | nil => rfl
    | cons hd tl => simp at hlen
  | cons hd tl ih =>
    cases l2 with
    | nil => simp at hlen
    | cons hd2 tl2 =>
      rw [List.map_cons, List.map_cons]
      have h0 := h 0 (by simp)
      rw [show f (getP (hd :: tl) 0) = f hd from rfl,
        show g (getP (hd2 :: tl2) 0) = g hd2 from rfl] at h0
      rw [h0, ih tl2 (by simpa using hlen)
        (fun k hk => h (k + 1) (by simpa using hk))]

/-- C1 (amended): Conservation per event, with the fair share taken as the
exact half-up value `⌊totalCents/N + 1/2⌋` (`fairShare`) — the value the
program's float64 expression yields whenever that computation rounds exactly,
though not on all non-negative totals (the counterexample theorem for this
claim exhibits the divergence at `N = 1`, `paid = 2^52 + 1`, where the
program's `avg` is `goAvg`-computed as `2^52 + 2` and the claimed bound
fails). For every well-formed event (at least one participant, all paid
amounts non-negative, pairwise distinct identities), in the output of
`Expense.Settle` each participant's effective contribution (the amount
originally paid, plus transfer amounts paid out, minus transfer amounts
received) lies within the rounding tolerance of this exact `avg`, and the
total discrepancy `Σ |effective - avg|` over the group is at most `N - 1`
cents. -/
theorem C1_conservation_per_event (ps : List Participant) (hne : ps ≠ [])
    (hpos : ∀ x ∈ ps, 0 ≤ x.paid)
    (hnd : (ps.map (fun x => x.email)).Nodup) :
    (ps.map (fun x =>
      |effective (Expense.ofParticipants ps).settleTransfers x
        - (Expense.ofParticipants ps).avg|)).sum ≤ (ps.length : Int) - 1 ∧
    ∀ x ∈ ps,
      |effective (Expense.ofParticipants ps).settleTransfers x
        - (Expense.ofParticipants ps).avg| ≤ (ps.length : Int) - 1 := by
  have hlq : (sortByPaid ps).length = ps.length := sortByPaid_length ps
  have hn : 0 < ps.length := List.length_pos.mpr hne
  have hqne : sortByPaid ps ≠ [] := by
    rw [← List.length_pos, hlq]; exact hn
  have HS := sortByPaid_sorted ps
  have HD : DistinctEmails (sortByPaid ps) :=
    distinctEmails_of_nodup _ (((sortByPaid_perm ps).map _).nodup_iff.mpr hnd)
  have inv0 := loopInv_init (Expense.ofParticipants ps).avg (sortByPaid ps) hqne
  rw [hlq] at inv0
  have hfuel : (ps.length - 1 - 0)
      + surplus (Expense.ofParticipants ps).avg (sortByPaid ps) + 1
      ≤ settleFuel (Expense.ofParticipants ps).avg (sortByPaid ps) := by
    unfold settleFuel; rw [hlq]; omega
  have hpost := settleLoop_main _ _ HS HD _ _ 0 (ps.length - 1) [] inv0 hfuel
  obtain ⟨hplen, _, hpsum, hside, hplink⟩ := hpost
  have hts : (Expense.ofParticipants ps).settleTransfers
      = (settleLoop (Expense.ofParticipants ps).avg
          (settleFuel (Expense.ofParticipants ps).avg (sortByPaid ps))
          (sortByPaid ps) 0 (ps.length - 1) []).2 := rfl
  have heff : ∀ k, k < (sortByPaid ps).length →
      |effective (Expense.ofParticipants ps).settleTransfers (getP (sortByPaid ps) k)
        - (Expense.ofParticipants ps).avg|
      = |(getP (settleLoop (Expense.ofParticipants ps).avg
          (settleFuel (Expense.ofParticipants ps).avg (sortByPaid ps))
          (sortByPaid ps) 0 (ps.length - 1) []).1 k).paid
        - (Expense.ofParticipants ps).avg| := by
    intro k hk
    rw [hts]
    unfold effective
    rw [hplink k hk]
  have hmapq : (sortByPaid ps).map (fun x =>
      |effective (Expense.ofParticipants ps).settleTransfers x
        - (Expense.ofParticipants ps).avg|)
      = (settleLoop (Expense.ofParticipants ps).avg
          (settleFuel (Expense.ofParticipants ps).avg (sortByPaid ps))
          (sortByPaid ps) 0 (ps.length - 1) []).1.map (fun y =>
        |y.paid - (Expense.ofParticipants ps).avg|) :=
    map_congr_getP _ _ _ _ hplen.symm heff
  have hsum_perm : (ps.map (fun x =>
      |effective (Expense.ofParticipants ps).settleTransfers x
        - (Expense.ofParticipants ps).avg|)).sum
      = ((sortByPaid ps).map (fun x =>
      |effective (Expense.ofParticipants ps).settleTransfers x
        - (Expense.ofParticipants ps).avg|)).sum :=
    (((sortByPaid_perm ps).map _).sum_eq).symm
  have htotal : sumPaid (settleLoop (Expense.ofParticipants ps).avg
      (settleFuel (Expense.ofParticipants ps).avg (sortByPaid ps))
      (sortByPaid ps) 0 (ps.length - 1) []).1 = sumPaid ps := by
    rw [hpsum, sortByPaid_sumPaid]
  have hrlen : (settleLoop (Expense.ofParticipants ps).avg
      (settleFuel (Expense.ofParticipants ps).avg (sortByPaid ps))
      (sortByPaid ps) 0 (ps.length - 1) []).1.length = ps.length := by
    rw [hplen, hlq]
  have havg : (Expense.ofParticipants ps).avg = fairShare (sumPaid ps) ps.length := rfl
  have hclose := fairShare_close (sumPaid ps) ps.length hn
  have hsumbound : ((sortByPaid ps).map (fun x =>
      |effective (Expense.ofParticipants ps).settleTransfers x
        - (Expense.ofParticipants ps).avg|)).sum ≤ (ps.length : Int) - 1 := by
    rw [hmapq]
    rcases hside with hle | hge
    · have hmem : ∀ y ∈ (settleLoop (Expense.ofParticipants ps).avg
          (settleFuel (Expense.ofParticipants ps).avg (sortByPaid ps))
          (sortByPaid ps) 0 (ps.length - 1) []).1,
          y.paid ≤ (Expense.ofParticipants ps).avg := by
        intro y hy
        obtain ⟨k, hk, rfl⟩ := (mem_iff_getP _ y).mp hy
        exact hle k (by rw [← hplen]; exact hk)
      rw [absSum_all_le _ _ hmem, htotal, hrlen, havg]
      omega
    · have hmem : ∀ y ∈ (settleLoop (Expense.ofParticipants ps).avg
          (settleFuel (Expense.ofParticipants ps).avg (sortByPaid ps))
          (sortByPaid ps) 0 (ps.length - 1) []).1,
          (Expense.ofParticipants ps).avg ≤ y.paid := by
        intro y hy
        obtain ⟨k, hk, rfl⟩ := (mem_iff_getP _ y).mp hy
        exact hge k (by rw [← hplen]; exact hk)
      rw [absSum_all_ge _ _ hmem, htotal, hrlen, havg]
      omega
  refine ⟨by rw [hsum_perm]; exact hsumbound, ?_⟩
  intro x hx
  have hnonneg : ∀ v ∈ ps.map (fun x =>
      |effective (Expense.ofParticipants ps).settleTransfers x
        - (Expense.ofParticipants ps).avg|), 0 ≤ v := by
    intro v hv
    obtain ⟨y, _, rfl⟩ := List.mem_map.mp hv
    exact abs_nonneg _
  have hsingle := List.single_le_sum hnonneg
    (|effective (Expense.ofParticipants ps).settleTransfers x
      - (Expense.ofParticipants ps).avg|)
    (List.mem_map_of_mem _ hx)
  calc |effective (Expense.ofParticipants ps).settleTransfers x
      - (Expense.ofParticipants ps).avg|
      ≤ (ps.map (fun x =>
        |effective (Expense.ofParticipants ps).settleTransfers x
          - (Expense.ofParticipants ps).avg|)).sum := hsingle
    _ ≤ (ps.length : Int) - 1 := by rw [hsum_perm]; exact hsumbound

set_option maxRecDepth 8000 in
/-- C1, counterexample to the claim as stated: the program computes the fair
share in float64, and at the well-formed single-participant event with
`paid = 2^52 + 1` cents that computation (`goAvg`, modelled from the IEEE-754
binary64 semantics of source line 621) yields `2^52 + 2`, while the exact
half-up value is `2^52 + 1`. With a single participant `Settle` emits no
transfers whatever `avg` is (the loop guard `i < j` fails immediately), so
the participant's effective contribution is the `2^52 + 1` cents paid and the
total discrepancy from the program's fair share is `1 > N - 1 = 0`: the
universally quantified claim fails on the program. -/
theorem C1_counterexample :
    goAvg (2 ^ 52 + 1) 1 = 2 ^ 52 + 2 ∧
    fairShare (2 ^ 52 + 1) 1 = 2 ^ 52 + 1 ∧
    (Expense.ofParticipants
      [{ email := "a", paid := (2 ^ 52 + 1 : Int) }]).settleTransfers = [] ∧
    ¬ (([{ email := "a", paid := (2 ^ 52 + 1 : Int) }] : List Participant).map
        (fun x =>
          |effective (Expense.ofParticipants
              [{ email := "a", paid := (2 ^ 52 + 1 : Int) }]).settleTransfers x
            - (goAvg (2 ^ 52 + 1) 1 : Int)|)).sum
      ≤ (([{ email := "a", paid := (2 ^ 52 + 1 : Int) }] :
          List Participant).length : Int) - 1 := by
  decide

/-! ### Emitted transfers: positivity and identity origin -/

/-- Every transfer the loop appends has a strictly positive amount and its
payer and payee are the identities at two distinct in-range positions of the
initial slice. -/
theorem settleLoop_emit (avg : Int) (q : List Participant) :
    ∀ fuel p i j acc, p.length = q.length → j < q.length →
      (∀ k, (getP p k).email = (getP q k).email) →
      ∀ t ∈ (settleLoop avg fuel p i j acc).2,
        t ∈ acc ∨ (0 < t.amount ∧ ∃ kj ki, kj < q.length ∧ ki < q.length ∧
          kj ≠ ki ∧ t.payer = (getP q kj).email ∧ t.payee = (getP q ki).email) := by
  intro fuel
  induction fuel with
  | zero => intro p i j acc _ _ _ t ht; exact Or.inl ht
  | succ fuel ih =>
    intro p i j acc hlen hjn hmail t ht
    by_cases hij : i < j
    · by_cases h2 : avg < (getP p i).paid
      · by_cases h3 : (getP p j).paid < avg
        · rw [settleLoop_step avg fuel p i j acc hij h2 h3] at ht
          have hjp : j < p.length := by rw [hlen]; exact hjn
          have hip : i < p.length := by omega
          have hip1 : i < (p.set j { getP p j with
              paid := (getP p j).paid
                + min (avg - (getP p j).paid) ((getP p i).paid - avg) }).length := by
            simpa using hip
          have hmail2 : ∀ k,
              (getP ((p.set j { getP p j with
                paid := (getP p j).paid
                  + min (avg - (getP p j).paid) ((getP p i).paid - avg) }).set i
                { getP p i with
                  paid := (getP p i).paid
                    - min (avg - (getP p j).paid) ((getP p i).paid - avg) }) k).email
              = (getP q k).email := by
            intro k
            by_cases hki : k = i
            · subst hki
              rw [getP_set_self _ _ _ hip1]
              exact hmail k
            · rw [getP_set_ne _ _ _ _ hki]
              by_cases hkj : k = j
              · subst hkj
                rw [getP_set_self _ _ _ hjp]
                exact hmail k
              · rw [getP_set_ne _ _ _ _ hkj]
                exact hmail k
          have := ih _ i j _ (by simpa using hlen) hjn hmail2 t ht
          rcases this with hin | hnew
          · rcases List.mem_append.mp hin with hold | hone
            · exact Or.inl hold
            · right
              have ht1 := List.mem_singleton.mp hone
              subst ht1
              refine ⟨le_min (by omega) (by omega), j, i, hjn, by omega, by omega,
                ?_, ?_⟩
              · exact hmail j
              · exact hmail i
          · exact Or.inr hnew
        · rw [settleLoop_adv_j avg fuel p i j acc hij h2 h3] at ht
          exact ih p i (j - 1) acc hlen (by omega) hmail t ht
      · rw [settleLoop_adv_i avg fuel p i j acc hij h2] at ht
        exact ih p (i + 1) j acc hlen hjn hmail t ht
    · rw [settleLoop_end avg fuel p i j acc hij] at ht
      exact Or.inl ht

/-- Every transfer `Expense.Settle` emits has a strictly positive amount, and
its payer and payee are identities of two distinct positions of the sorted
working slice. -/
theorem settleTransfers_emit (e : Expense) :
    ∀ t ∈ e.settleTransfers,
      0 < t.amount ∧ ∃ kj ki, kj < (sortByPaid e.participants).length ∧
        ki < (sortByPaid e.participants).length ∧ kj ≠ ki ∧
        t.payer = (getP (sortByPaid e.participants) kj).email ∧
        t.payee = (getP (sortByPaid e.participants) ki).email := by
  intro t ht
  by_cases hps : e.participants = []
  · exfalso
    have hempty : e.settleTransfers = [] := by
      unfold Expense.settleTransfers
      rw [hps]
      rfl
    rw [hempty] at ht
    simp at ht
  · have hjn : e.participants.length - 1 < (sortByPaid e.participants).length := by
      rw [sortByPaid_length]
      have := List.length_pos.mpr hps
      omega
    have := settleLoop_emit e.avg (sortByPaid e.participants) _
      (sortByPaid e.participants) 0 (e.participants.length - 1) [] rfl hjn
      (fun _ => rfl) t ht
    rcases this with hin | hnew
    · simp at hin
    · exact hnew

/-! ### Entry-level characterization of the ledger operations -/

theorem entry?_row_none (s : Settlement) (p q : String)
    (h : alookup s p = none) : entry? s p q = none := by
  unfold entry?; rw [h]

theorem entry?_row_some (s : Settlement) (p q : String) (pp : Payments)
    (h : alookup s p = some pp) : entry? s p q = alookup pp q := by
  unfold entry?; rw [h]

theorem getAmt_row_none (s : Settlement) (p q : String)
    (h : alookup s p = none) : getAmt s p q = 0 := by
  unfold getAmt; rw [h]

theorem getAmt_row_some (s : Settlement) (p q : String) (pp : Payments)
    (h : alookup s p = some pp) : getAmt s p q = (alookup pp q).getD 0 := by
  unfold getAmt; rw [h]

theorem getAmt_eq_entry (s : Settlement) (p q : String) :
    getAmt s p q = (entry? s p q).getD 0 := by
  cases halo : alookup s p with
  | none => rw [getAmt_row_none s p q halo, entry?_row_none s p q halo]; rfl
  | some pp => rw [getAmt_row_some s p q pp halo, entry?_row_some s p q pp halo]

theorem upsert_rslt (s : Settlement) (p q : String) (a : Int) (l : List String) :
    (upsertAmount s p q a l).1
      = match alookup s p with
        | none => aset s p [(q, a)]
        | some pp => aset s p (aset pp q ((alookup pp q).getD 0 + a)) := rfl

theorem entry?_upsert_self (s : Settlement) (p q : String) (a : Int)
    (l : List String) :
    entry? (upsertAmount s p q a l).1 p q = some (getAmt s p q + a) := by
  rw [upsert_rslt]
  cases halo : alookup s p with
  | none =>
    rw [entry?_row_some _ p q _ (alookup_aset_self s p [(q, a)]),
      getAmt_row_none s p q halo]
    simp [alookup]
  | some pp =>
    rw [entry?_row_some _ p q _ (alookup_aset_self s p _),
      alookup_aset_self, getAmt_row_some s p q pp halo]

theorem entry?_upsert_frame (s : Settlement) (p q x y : String) (a : Int)
    (l : List String) (h : ¬(x = p ∧ y = q)) :
    entry? (upsertAmount s p q a l).1 x y = entry? s x y := by
  rw [upsert_rslt]
  by_cases hx : x = p
  · subst hx
    have hy : y ≠ q := fun hh => h ⟨rfl, hh⟩
    cases halo : alookup s x with
    | none =>
      rw [entry?_row_some _ x y _ (alookup_aset_self s x [(q, a)]),
        entry?_row_none s x y halo]
      simp [alookup]
      exact fun hh => hy hh.symm
    | some pp =>
      rw [entry?_row_some _ x y _ (alookup_aset_self s x _),
        alookup_aset_ne pp q y _ (fun hh => hy hh.symm),
        entry?_row_some s x y pp halo]
  · cases halo : alookup s p with
    | none =>
      unfold entry?
      rw [alookup_aset_ne s p x _ (fun hh => hx hh.symm)]
    | some pp =>
      unfold entry?
      rw [alookup_aset_ne s p x _ (fun hh => hx hh.symm)]

theorem upsert_lookup (s : Settlement) (p q : String) (a : Int) (l : List String) :
    (upsertAmount s p q a l).2 = addKey l (pairKey p q) := by
  unfold upsertAmount
  cases alookup s p with
  | none => rfl
  | some pp => rfl

theorem delEntry_eq (s : Settlement) (rcv k : String) :
    delEntry s rcv k
      = match alookup s rcv with
        | none => s
        | some pp => aset s rcv (adel pp k) := rfl

theorem entry?_delEntry_self (s : Settlement) (rcv k : String) :
    entry? (delEntry s rcv k) rcv k = none := by
  rw [delEntry_eq]
  cases halo : alookup s rcv with
  | none => exact entry?_row_none s rcv k halo
  | some pp =>
    rw [entry?_row_some _ rcv k _ (alookup_aset_self s rcv _), alookup_adel_self]

theorem entry?_delEntry_frame (s : Settlement) (rcv k x y : String)
    (h : ¬(x = rcv ∧ y = k)) :
    entry? (delEntry s rcv k) x y = entry? s x y := by
  rw [delEntry_eq]
  cases halo : alookup s rcv with
  | none => rfl
  | some pp =>
    by_cases hx : x = rcv
    · subst hx
      have hy : y ≠ k := fun hh => h ⟨rfl, hh⟩
      rw [entry?_row_some _ x y _ (alookup_aset_self s x _),
        alookup_adel_ne pp k y (fun hh => hy hh.symm),
        entry?_row_some s x y pp halo]
    · unfold entry?
      rw [alookup_aset_ne s rcv x _ (fun hh => hx hh.symm)]

theorem decEntry_eq (s : Settlement) (rcv k : String) (amt : Int) :
    decEntry s rcv k amt
      = match alookup s rcv with
        | none => s
        | some pp =>
          if (alookup pp k).getD 0 - amt = 0 then aset s rcv (adel pp k)
          else aset s rcv (aset pp k ((alookup pp k).getD 0 - amt)) := rfl

theorem entry?_decEntry_self (s : Settlement) (rcv k : String) (amt w : Int)
    (h : entry? s rcv k = some w) :
    entry? (decEntry s rcv k amt) rcv k
      = if w - amt = 0 then none else some (w - amt) := by
  rw [decEntry_eq]
  cases halo : alookup s rcv with
  | none => rw [entry?_row_none s rcv k halo] at h; exact absurd h (by simp)
  | some pp =>
    rw [entry?_row_some s rcv k pp halo] at h
    show entry? (if (alookup pp k).getD 0 - amt = 0 then aset s rcv (adel pp k)
      else aset s rcv (aset pp k ((alookup pp k).getD 0 - amt))) rcv k = _
    rw [h, Option.getD_some]
    by_cases hz : w - amt = 0
    · rw [if_pos hz, if_pos hz,
        entry?_row_some _ rcv k _ (alookup_aset_self s rcv _), alookup_adel_self]
    · rw [if_neg hz, if_neg hz,
        entry?_row_some _ rcv k _ (alookup_aset_self s rcv _), alookup_aset_self]

theorem entry?_decEntry_frame (s : Settlement) (rcv k x y : String) (amt : Int)
    (h : ¬(x = rcv ∧ y = k)) :
    entry? (decEntry s rcv k amt) x y = entry? s x y := by
  rw [decEntry_eq]
  cases halo : alookup s rcv with
  | none => rfl
  | some pp =>
    show entry? (if (alookup pp k).getD 0 - amt = 0 then aset s rcv (adel pp k)
      else aset s rcv (aset pp k ((alookup pp k).getD 0 - amt))) x y = _
    by_cases hz : (alookup pp k).getD 0 - amt = 0
    · rw [if_pos hz]
      by_cases hx : x = rcv
      · subst hx
        have hy : y ≠ k := fun hh => h ⟨rfl, hh⟩
        rw [entry?_row_some _ x y _ (alookup_aset_self s x _),
          alookup_adel_ne pp k y (fun hh => hy hh.symm),
          entry?_row_some s x y pp halo]
      · unfold entry?
        rw [alookup_aset_ne s rcv x _ (fun hh => hx hh.symm)]
    · rw [if_neg hz]
      by_cases hx : x = rcv
      · subst hx
        have hy : y ≠ k := fun hh => h ⟨rfl, hh⟩
        rw [entry?_row_some _ x y _ (alookup_aset_self s x _),
          alookup_aset_ne pp k y _ (fun hh => hy hh.symm),
          entry?_row_some s x y pp halo]
      · unfold entry?
        rw [alookup_aset_ne s rcv x _ (fun hh => hx hh.symm)]

/-! ### Branch equations for the netting fold -/

theorem foldTransfer_seen_ge (st : FoldState) (t : Transfer)
    (h1 : hasKey st.lookup (pairKey t.payee t.payer) = true)
    (h2 : t.amount ≤ getAmt st.rslt t.payee t.payer) :
    foldTransfer st t
      = { st with rslt := decEntry st.rslt t.payee t.payer t.amount } := by
  simp [foldTransfer, h1, h2]

theorem foldTransfer_seen_lt (st : FoldState) (t : Transfer)
    (h1 : hasKey st.lookup (pairKey t.payee t.payer) = true)
    (h2 : ¬ t.amount ≤ getAmt st.rslt t.payee t.payer) :
    foldTransfer st t
      = { rslt := (upsertAmount (delEntry st.rslt t.payee t.payer) t.payer t.payee
            (t.amount - getAmt st.rslt t.payee t.payer)
            (delKey st.lookup (pairKey t.payee t.payer))).1,
          lookup := (upsertAmount (delEntry st.rslt t.payee t.payer) t.payer t.payee
            (t.amount - getAmt st.rslt t.payee t.payer)
            (delKey st.lookup (pairKey t.payee t.payer))).2 } := by
  simp [foldTransfer, h1, h2]

theorem foldTransfer_unseen (st : FoldState) (t : Transfer)
    (h1 : hasKey st.lookup (pairKey t.payee t.payer) = false) :
    foldTransfer st t
      = { rslt := (upsertAmount st.rslt t.payer t.payee t.amount st.lookup).1,
          lookup := (upsertAmount st.rslt t.payer t.payee t.amount st.lookup).2 } := by
  simp [foldTransfer, h1]

/-! ### Preservation of the netting invariant -/

/-- Auxiliary invariant: every present entry carries separator-free
identities (needed because the seen-pair keys concatenate identities with a
separator character). -/
def KeysSepFree (st : FoldState) : Prop :=
  ∀ p q, entry? st.rslt p q ≠ none → sepFree p ∧ sepFree q

theorem getAmt_nonneg_of_pos (s : Settlement)
    (hpos : ∀ x y b, entry? s x y = some b → 0 < b) (x y : String) :
    0 ≤ getAmt s x y := by
  rw [getAmt_eq_entry]
  cases hE : entry? s x y with
  | none => simp
  | some w => have := hpos x y w hE; simp; omega

/-- One netting step preserves the invariant, for a transfer with a positive
amount and separator-free identities. -/
theorem netting_step (st : FoldState) (t : Transfer)
    (hta : 0 < t.amount) (htp : sepFree t.payer) (hte : sepFree t.payee)
    (hinv : NettingInv st) (hkeys : KeysSepFree st) :
    NettingInv (foldTransfer st t) ∧ KeysSepFree (foldTransfer st t) := by
  obtain ⟨hpos, hnet, hmark⟩ := hinv
  by_cases hseen : hasKey st.lookup (pairKey t.payee t.payer) = true
  · by_cases hge : t.amount ≤ getAmt st.rslt t.payee t.payer
    · rw [foldTransfer_seen_ge st t hseen hge]
      cases hE : entry? st.rslt t.payee t.payer with
      | none =>
        exfalso
        have : getAmt st.rslt t.payee t.payer = 0 := by
          rw [getAmt_eq_entry, hE]; rfl
        omega
      | some w =>
        have hw : getAmt st.rslt t.payee t.payer = w := by
          rw [getAmt_eq_entry, hE]; rfl
        rw [hw] at hge
        have hdec := entry?_decEntry_self st.rslt t.payee t.payer t.amount w hE
        refine ⟨⟨?_, ?_, ?_⟩, ?_⟩
        · intro x y b hb
          by_cases h1 : x = t.payee ∧ y = t.payer
          · obtain ⟨rfl, rfl⟩ := h1
            rw [hdec] at hb
            by_cases hz : w - t.amount = 0
            · rw [if_pos hz] at hb; cases hb
            · rw [if_neg hz] at hb
              have hb2 : w - t.amount = b := by injection hb
              omega
          · rw [entry?_decEntry_frame _ _ _ _ _ _ h1] at hb
            exact hpos x y b hb
        · intro x y hxy hne0
          by_cases h1 : x = t.payee ∧ y = t.payer
          · obtain ⟨rfl, rfl⟩ := h1
            rw [entry?_decEntry_frame _ _ _ _ _ _ (fun hh => hxy hh.2)]
            exact hnet t.payee t.payer hxy (by rw [hE]; simp)
          · by_cases h2 : x = t.payer ∧ y = t.payee
            · obtain ⟨rfl, rfl⟩ := h2
              exfalso
              apply hne0
              rw [entry?_decEntry_frame _ _ _ _ _ _ (fun hh => hxy hh.1)]
              exact hnet t.payee t.payer (fun hh => hxy hh.symm) (by rw [hE]; simp)
            · rw [entry?_decEntry_frame _ _ _ _ _ _ h1] at hne0
              rw [entry?_decEntry_frame _ _ _ _ _ _ (fun hh => h2 ⟨hh.2, hh.1⟩)]
              exact hnet x y hxy hne0
        · intro x y hne0
          show hasKey st.lookup (pairKey x y) = true
          by_cases h1 : x = t.payee ∧ y = t.payer
          · obtain ⟨rfl, rfl⟩ := h1
            exact hmark _ _ (by rw [hE]; simp)
          · rw [entry?_decEntry_frame _ _ _ _ _ _ h1] at hne0
            exact hmark x y hne0
        · intro x y hne0
          by_cases h1 : x = t.payee ∧ y = t.payer
          · obtain ⟨rfl, rfl⟩ := h1
            exact hkeys _ _ (by rw [hE]; simp)
          · rw [entry?_decEntry_frame _ _ _ _ _ _ h1] at hne0
            exact hkeys x y hne0
    · rw [foldTransfer_seen_lt st t hseen hge]
      have hexg : 0 ≤ getAmt st.rslt t.payee t.payer :=
        getAmt_nonneg_of_pos st.rslt hpos _ _
      have hamt : 0 < t.amount - getAmt st.rslt t.payee t.payer := by omega
      have hposDel : ∀ x y b,
          entry? (delEntry st.rslt t.payee t.payer) x y = some b → 0 < b := by
        intro x y b hb
        by_cases h1 : x = t.payee ∧ y = t.payer
        · obtain ⟨rfl, rfl⟩ := h1
          rw [entry?_delEntry_self] at hb
          cases hb
        · rw [entry?_delEntry_frame _ _ _ _ _ h1] at hb
          exact hpos x y b hb
      have hUself := entry?_upsert_self (delEntry st.rslt t.payee t.payer)
        t.payer t.payee (t.amount - getAmt st.rslt t.payee t.payer)
        (delKey st.lookup (pairKey t.payee t.payer))
      refine ⟨⟨?_, ?_, ?_⟩, ?_⟩
      · intro x y b hb
        by_cases h1 : x = t.payer ∧ y = t.payee
        · obtain ⟨rfl, rfl⟩ := h1
          rw [hUself] at hb
          have hb2 : getAmt (delEntry st.rslt t.payee t.payer) t.payer t.payee
              + (t.amount - getAmt st.rslt t.payee t.payer) = b := by injection hb
          have := getAmt_nonneg_of_pos _ hposDel t.payer t.payee
          omega
        · rw [entry?_upsert_frame _ _ _ _ _ _ _ h1] at hb
          by_cases h2 : x = t.payee ∧ y = t.payer
          · obtain ⟨rfl, rfl⟩ := h2
            rw [entry?_delEntry_self] at hb
            cases hb
          · rw [entry?_delEntry_frame _ _ _ _ _ h2] at hb
            exact hpos x y b hb
      · intro x y hxy hne0
        by_cases h1 : x = t.payer ∧ y = t.payee
        · obtain ⟨rfl, rfl⟩ := h1
          rw [entry?_upsert_frame _ _ _ _ _ _ _ (fun hh => hxy hh.2)]
          exact entry?_delEntry_self st.rslt t.payee t.payer
        · by_cases h2 : x = t.payee ∧ y = t.payer
          · obtain ⟨rfl, rfl⟩ := h2
            exfalso
            apply hne0
            rw [entry?_upsert_frame _ _ _ _ _ _ _ (fun hh => hxy hh.1)]
            exact entry?_delEntry_self st.rslt t.payee t.payer
          · rw [entry?_upsert_frame _ _ _ _ _ _ _ h1,
              entry?_delEntry_frame _ _ _ _ _ h2] at hne0
            rw [entry?_upsert_frame _ _ _ _ _ _ _ (fun hh => h2 ⟨hh.2, hh.1⟩),
              entry?_delEntry_frame _ _ _ _ _ (fun hh => h1 ⟨hh.2, hh.1⟩)]
            exact hnet x y hxy hne0
      · intro x y hne0
        show hasKey (upsertAmount (delEntry st.rslt t.payee t.payer)
          t.payer t.payee (t.amount - getAmt st.rslt t.payee t.payer)
          (delKey st.lookup (pairKey t.payee t.payer))).2 (pairKey x y) = true
        rw [upsert_lookup]
        by_cases h1 : x = t.payer ∧ y = t.payee
        · obtain ⟨rfl, rfl⟩ := h1
          exact hasKey_addKey_self _ _
        · by_cases h2 : x = t.payee ∧ y = t.payer
          · obtain ⟨rfl, rfl⟩ := h2
            exfalso
            apply hne0
            rw [entry?_upsert_frame (delEntry st.rslt t.payee t.payer)
              t.payer t.payee t.payee t.payer
              (t.amount - getAmt st.rslt t.payee t.payer)
              (delKey st.lookup (pairKey t.payee t.payer)) h1]
            exact entry?_delEntry_self st.rslt t.payee t.payer
          · rw [entry?_upsert_frame _ _ _ _ _ _ _ h1,
              entry?_delEntry_frame _ _ _ _ _ h2] at hne0
            have hsx : sepFree x := (hkeys x y hne0).1
            have hold := hmark x y hne0
            have hkne : pairKey x y ≠ pairKey t.payee t.payer := by
              intro hh
              obtain ⟨hh1, hh2⟩ := pairKey_inj hsx hte hh
              exact h2 ⟨hh1, hh2⟩
            have hkne2 : pairKey t.payer t.payee ≠ pairKey x y := by
              intro hh
              obtain ⟨hh1, hh2⟩ := pairKey_inj htp hsx hh
              exact h1 ⟨hh1.symm, hh2.symm⟩
            rw [hasKey_addKey_ne _ _ _ hkne2,
              hasKey_delKey_ne _ _ _ (fun hh => hkne hh.symm)]
            exact hold
      · intro x y hne0
        by_cases h1 : x = t.payer ∧ y = t.payee
        · obtain ⟨rfl, rfl⟩ := h1
          exact ⟨htp, hte⟩
        · by_cases h2 : x = t.payee ∧ y = t.payer
          · obtain ⟨rfl, rfl⟩ := h2
            exact ⟨hte, htp⟩
          · rw [entry?_upsert_frame _ _ _ _ _ _ _ h1,
              entry?_delEntry_frame _ _ _ _ _ h2] at hne0
            exact hkeys x y hne0
  · have hseen' : hasKey st.lookup (pairKey t.payee t.payer) = false := by
      cases hh : hasKey st.lookup (pairKey t.payee t.payer)
      · rfl
      · exact absurd hh hseen
    rw [foldTransfer_unseen st t hseen']
    have hRev : entry? st.rslt t.payee t.payer = none := by
      cases hE : entry? st.rslt t.payee t.payer with
      | none => rfl
      | some w =>
        exfalso
        have := hmark t.payee t.payer (by rw [hE]; simp)
        rw [this] at hseen'
        cases hseen'
    have hUself := entry?_upsert_self st.rslt t.payer t.payee t.amount st.lookup
    refine ⟨⟨?_, ?_, ?_⟩, ?_⟩
    · intro x y b hb
      by_cases h1 : x = t.payer ∧ y = t.payee
      · obtain ⟨rfl, rfl⟩ := h1
        rw [hUself] at hb
        have hb2 : getAmt st.rslt t.payer t.payee + t.amount = b := by injection hb
        have := getAmt_nonneg_of_pos st.rslt hpos t.payer t.payee
        omega
      · rw [entry?_upsert_frame _ _ _ _ _ _ _ h1] at hb
        exact hpos x y b hb
    · intro x y hxy hne0
      by_cases h1 : x = t.payer ∧ y = t.payee
      · obtain ⟨rfl, rfl⟩ := h1
        rw [entry?_upsert_frame st.rslt t.payer t.payee t.payee t.payer
          t.amount st.lookup (fun hh => hxy hh.2)]
        exact hRev
      · by_cases h2 : x = t.payee ∧ y = t.payer
        · obtain ⟨rfl, rfl⟩ := h2
          exfalso
          apply hne0
          rw [entry?_upsert_frame st.rslt t.payer t.payee t.payee t.payer
            t.amount st.lookup (fun hh => hxy hh.1)]
          exact hRev
        · rw [entry?_upsert_frame _ _ _ _ _ _ _ h1] at hne0
          rw [entry?_upsert_frame st.rslt t.payer t.payee y x
            t.amount st.lookup (fun hh => h2 ⟨hh.2, hh.1⟩)]
          exact hnet x y hxy hne0
    · intro x y hne0
      show hasKey (upsertAmount st.rslt t.payer t.payee
        t.amount st.lookup).2 (pairKey x y) = true
      rw [upsert_lookup]
      by_cases h1 : x = t.payer ∧ y = t.payee
      · obtain ⟨rfl, rfl⟩ := h1
        exact hasKey_addKey_self _ _
      · rw [entry?_upsert_frame _ _ _ _ _ _ _ h1] at hne0
        have hsx : sepFree x := (hkeys x y hne0).1
        have hkne2 : pairKey t.payer t.payee ≠ pairKey x y := by
          intro hh
          obtain ⟨hh1, hh2⟩ := pairKey_inj htp hsx hh
          exact h1 ⟨hh1.symm, hh2.symm⟩
        rw [hasKey_addKey_ne _ _ _ hkne2]
        exact hmark x y hne0
    · intro x y hne0
      by_cases h1 : x = t.payer ∧ y = t.payee
      · obtain ⟨rfl, rfl⟩ := h1
        exact ⟨htp, hte⟩
      · rw [entry?_upsert_frame _ _ _ _ _ _ _ h1] at hne0
        exact hkeys x y hne0

/-! ### Entries of one event's settlement map -/

/-- All entries of a settlement map satisfy a predicate of the payer/payee
pair. -/
def MapPairs (Q : String → String → Prop) (s : Settlement) : Prop :=
  ∀ kv ∈ s, ∀ pa ∈ kv.2, Q kv.1 pa.1

/-- All entries of a settlement map carry strictly positive amounts. -/
def MapPos (s : Settlement) : Prop :=
  ∀ kv ∈ s, ∀ pa ∈ kv.2, (0 : Int) < pa.2

theorem accTransfer_eq (s : Settlement) (t : Transfer) :
    accTransfer s t
      = match alookup s t.payer with
        | none => aset s t.payer [(t.payee, t.amount)]
        | some pp =>
          aset s t.payer (aset pp t.payee ((alookup pp t.payee).getD 0 + t.amount)) := rfl

theorem mapPairs_accTransfer (Q : String → String → Prop) (s : Settlement)
    (t : Transfer) (hQ : Q t.payer t.payee) (h : MapPairs Q s) :
    MapPairs Q (accTransfer s t) := by
  intro kv hkv pa hpa
  rw [accTransfer_eq] at hkv
  cases halo : alookup s t.payer with
  | none =>
    rw [halo] at hkv
    rcases mem_aset _ _ _ _ hkv with hkv1 | hkv1
    · subst hkv1
      have : pa = (t.payee, t.amount) := by simpa using hpa
      subst this
      exact hQ
    · exact h kv hkv1 pa hpa
  | some pp =>
    rw [halo] at hkv
    rcases mem_aset _ _ _ _ hkv with hkv1 | hkv1
    · subst hkv1
      rcases mem_aset _ _ _ _ hpa with hpa1 | hpa1
      · subst hpa1
        exact hQ
      · exact h (t.payer, pp) (alookup_mem _ _ _ halo) pa hpa1
    · exact h kv hkv1 pa hpa

theorem mapPos_accTransfer (s : Settlement) (t : Transfer)
    (ht : 0 < t.amount) (h : MapPos s) : MapPos (accTransfer s t) := by
  intro kv hkv pa hpa
  rw [accTransfer_eq] at hkv
  cases halo : alookup s t.payer with
  | none =>
    rw [halo] at hkv
    rcases mem_aset _ _ _ _ hkv with hkv1 | hkv1
    · subst hkv1
      have : pa = (t.payee, t.amount) := by simpa using hpa
      subst this
      exact ht
    · exact h kv hkv1 pa hpa
  | some pp =>
    rw [halo] at hkv
    rcases mem_aset _ _ _ _ hkv with hkv1 | hkv1
    · subst hkv1
      rcases mem_aset _ _ _ _ hpa with hpa1 | hpa1
      · subst hpa1
        show (0 : Int) < (alookup pp t.payee).getD 0 + t.amount
        have hnn : (0 : Int) ≤ (alookup pp t.payee).getD 0 := by
          cases hin : alookup pp t.payee with
          | none => simp
          | some w =>
            have := h (t.payer, pp) (alookup_mem _ _ _ halo)
              (t.payee, w) (alookup_mem _ _ _ hin)
            simp
            omega
        omega
      · exact h (t.payer, pp) (alookup_mem _ _ _ halo) pa hpa1
    · exact h kv hkv1 pa hpa

theorem settleFold_pairs (Q : String → String → Prop) (ts : List Transfer) :
    (∀ t ∈ ts, Q t.payer t.payee) →
    ∀ s, MapPairs Q s → MapPairs Q (ts.foldl accTransfer s) := by
  induction ts with
  | nil => intro _ s hs; exact hs
  | cons t ts ih =>
    intro hts s hs
    exact ih (fun u hu => hts u (List.mem_cons_of_mem _ hu)) _
      (mapPairs_accTransfer Q s t (hts t (List.mem_cons_self _ _)) hs)

theorem settleFold_pos (ts : List Transfer) :
    (∀ t ∈ ts, 0 < t.amount) →
    ∀ s, MapPos s → MapPos (ts.foldl accTransfer s) := by
  induction ts with
  | nil => intro _ s hs; exact hs
  | cons t ts ih =>
    intro hts s hs
    exact ih (fun u hu => hts u (List.mem_cons_of_mem _ hu)) _
      (mapPos_accTransfer s t (hts t (List.mem_cons_self _ _)) hs)

theorem entry?_mem (s : Settlement) (p q : String) (a : Int)
    (h : entry? s p q = some a) : ∃ pp, (p, pp) ∈ s ∧ (q, a) ∈ pp := by
  cases halo : alookup s p with
  | none => rw [entry?_row_none s p q halo] at h; cases h
  | some pp =>
    rw [entry?_row_some s p q pp halo] at h
    exact ⟨pp, alookup_mem _ _ _ halo, alookup_mem _ _ _ h⟩

theorem settlementEntries_mem (s : Settlement) (t : Transfer)
    (h : t ∈ settlementEntries s) :
    ∃ kv, kv ∈ s ∧ ∃ pa, pa ∈ kv.2 ∧ t = Transfer.mk kv.1 pa.1 pa.2 := by
  unfold settlementEntries at h
  rw [List.mem_flatten] at h
  obtain ⟨l, hl, hin⟩ := h
  rw [List.mem_map] at hl
  obtain ⟨kv, hkv, rfl⟩ := hl
  rw [List.mem_map] at hin
  obtain ⟨pa, hpa, rfl⟩ := hin
  exact ⟨kv, hkv, pa, hpa, rfl⟩

theorem tripTransfers_mem (es : List Expense) (t : Transfer)
    (h : t ∈ tripTransfers es) : ∃ e ∈ es, t ∈ settlementEntries e.Settle := by
  unfold tripTransfers at h
  rw [List.mem_flatten] at h
  obtain ⟨l, hl, hin⟩ := h
  rw [List.mem_map] at hl
  obtain ⟨e, he, rfl⟩ := hl
  exact ⟨e, he, hin⟩

theorem settle_entry_pos (e : Expense) : MapPos e.Settle := by
  apply settleFold_pos e.settleTransfers
    (fun t ht => (settleTransfers_emit e t ht).1)
  intro kv hkv
  simp at hkv

theorem settle_entry_emails (e : Expense)
    (hP : ∀ x ∈ e.participants, sepFree x.email) :
    MapPairs (fun p q => sepFree p ∧ sepFree q) e.Settle := by
  apply settleFold_pairs (fun p q => sepFree p ∧ sepFree q) e.settleTransfers
  · intro t ht
    obtain ⟨-, kj, ki, hkj, hki, -, hp, he⟩ := settleTransfers_emit e t ht
    constructor
    · rw [hp]
      exact hP _ ((sortByPaid_perm e.participants).subset
        (getP_mem _ kj hkj))
    · rw [he]
      exact hP _ ((sortByPaid_perm e.participants).subset
        (getP_mem _ ki hki))
  · intro kv hkv
    simp at hkv

theorem tripTransfers_pos (es : List Expense) :
    ∀ t ∈ tripTransfers es, 0 < t.amount := by
  intro t ht
  obtain ⟨e, he, hte⟩ := tripTransfers_mem es t ht
  obtain ⟨kv, hkv, pa, hpa, rfl⟩ := settlementEntries_mem _ _ hte
  exact settle_entry_pos e kv hkv pa hpa

theorem tripTransfers_sepFree (es : List Expense)
    (hP : ∀ e ∈ es, ∀ x ∈ e.participants, sepFree x.email) :
    ∀ t ∈ tripTransfers es, sepFree t.payer ∧ sepFree t.payee := by
  intro t ht
  obtain ⟨e, he, hte⟩ := tripTransfers_mem es t ht
  obtain ⟨kv, hkv, pa, hpa, rfl⟩ := settlementEntries_mem _ _ hte
  exact settle_entry_emails e (hP e he) kv hkv pa hpa

theorem entry?_nil (p q : String) : entry? ([] : Settlement) p q = none := rfl

theorem nettingInv_init : NettingInv initState ∧ KeysSepFree initState := by
  refine ⟨⟨?_, ?_, ?_⟩, ?_⟩
  · intro p q a h
    rw [show initState.rslt = [] from rfl, entry?_nil] at h
    cases h
  · intro p q _ h
    rw [show initState.rslt = [] from rfl, entry?_nil] at h
    exact absurd rfl h
  · intro p q h
    rw [show initState.rslt = [] from rfl, entry?_nil] at h
    exact absurd rfl h
  · intro p q h
    rw [show initState.rslt = [] from rfl, entry?_nil] at h
    exact absurd rfl h

theorem netting_fold (ts : List Transfer)
    (hts : ∀ t ∈ ts, 0 < t.amount ∧ sepFree t.payer ∧ sepFree t.payee) :
    ∀ st, NettingInv st → KeysSepFree st →
      NettingInv (ts.foldl foldTransfer st)
        ∧ KeysSepFree (ts.foldl foldTransfer st) := by
  induction ts with
  | nil => intro st h1 h2; exact ⟨h1, h2⟩
  | cons t ts ih =>
    intro st h1 h2
    obtain ⟨ha, hp, he⟩ := hts t (List.mem_cons_self _ _)
    obtain ⟨h1a, h2a⟩ := netting_step st t ha hp he h1 h2
    exact ih (fun u hu => hts u (List.mem_cons_of_mem _ hu)) _ h1a h2a

/-- C3 (amended): netting invariant during Complete's fold, for trips whose
participant identities do not contain the separator character `>` (the
character the seen-pair keys are glued with, so the key encoding is
unambiguous). After every single fold step over the settled transfers of the
trip's events — not only at the end — every amount present in the ledger is
strictly positive, and for every pair of distinct identities at most one of
the two directions is present. Without the separator restriction the claim is
false; see the counterexample. -/
theorem C3_netting_invariant_sepFree (es : List Expense)
    (hP : ∀ e ∈ es, ∀ x ∈ e.participants, sepFree x.email) :
    ∀ m,
      (∀ p q a,
        entry? (((tripTransfers es).take m).foldl foldTransfer initState).rslt p q
          = some a → 0 < a) ∧
      (∀ p q, p ≠ q →
        ¬(entry? (((tripTransfers es).take m).foldl foldTransfer initState).rslt p q
            ≠ none ∧
          entry? (((tripTransfers es).take m).foldl foldTransfer initState).rslt q p
            ≠ none)) := by
  intro m
  have hsub : ∀ t ∈ (tripTransfers es).take m, t ∈ tripTransfers es :=
    fun t ht => List.take_subset m _ ht
  have hts : ∀ t ∈ (tripTransfers es).take m,
      0 < t.amount ∧ sepFree t.payer ∧ sepFree t.payee := by
    intro t ht
    obtain ⟨h1, h2⟩ := tripTransfers_sepFree es hP t (hsub t ht)
    exact ⟨tripTransfers_pos es t (hsub t ht), h1, h2⟩
  obtain ⟨⟨hpos, hnet, -⟩, -⟩ :=
    netting_fold _ hts initState nettingInv_init.1 nettingInv_init.2
  exact ⟨hpos, fun p q hpq hand => hand.2 (hnet p q hpq hand.1)⟩

/-- A trip whose identities contain the separator character `>`, exposing the
ambiguity of the seen-pair key encoding. -/
def sepTrip : List Expense :=
  [Expense.ofParticipants
    [{ email := "b>c", paid := 10 }, { email := "a", paid := 0 }],
   Expense.ofParticipants
    [{ email := "a>b", paid := 6 }, { email := "c", paid := 0 }],
   Expense.ofParticipants
    [{ email := "a", paid := 4 }, { email := "b>c", paid := 0 }]]

/-- C3 counterexample: on a trip with identities containing `>`, after
Complete's fold both `ledger[a][b>c]` and `ledger[b>c][a]` are present — the
netting invariant as stated fails for the pair (a, b>c). -/
theorem C3_counterexample :
    ("a" : String) ≠ "b>c" ∧
    entry? (tripLedger sepTrip).rslt "a" "b>c" ≠ none ∧
    entry? (tripLedger sepTrip).rslt "b>c" "a" ≠ none := by decide

/-! ### The zero-total and single-participant cases -/

theorem settleLoop_stall (avg : Int) :
    ∀ fuel p i j acc, j < p.length →
      (∀ k, k < p.length → (getP p k).paid ≤ avg) →
      settleLoop avg fuel p i j acc = (p, acc) := by
  intro fuel
  induction fuel with
  | zero => intro p i j acc _ _; rfl
  | succ fuel ih =>
    intro p i j acc hj hall
    by_cases hij : i < j
    · rw [settleLoop_adv_i avg fuel p i j acc hij
        (by have := hall i (by omega); omega)]
      exact ih p (i + 1) j acc hj hall
    · exact settleLoop_end avg fuel p i j acc hij

theorem fairShare_zero (n : Nat) : fairShare 0 n = 0 := by
  unfold fairShare
  cases n with
  | zero => norm_num
  | succ n =>
    apply Int.ediv_eq_zero_of_lt
    · positivity
    · push_cast; omega

theorem sumPaid_nonneg (l : List Participant) (h : ∀ x ∈ l, 0 ≤ x.paid) :
    0 ≤ sumPaid l := by
  induction l with
  | nil => simp [sumPaid]
  | cons hd tl ih =>
    have h1 := h hd (List.mem_cons_self _ _)
    have h2 := ih (fun x hx => h x (List.mem_cons_of_mem _ hx))
    show 0 ≤ hd.paid + sumPaid tl
    omega

theorem allPaid_zero (l : List Participant) (hz : sumPaid l = 0)
    (h : ∀ x ∈ l, 0 ≤ x.paid) : ∀ x ∈ l, x.paid = 0 := by
  induction l with
  | nil => simp
  | cons hd tl ih =>
    have h1 := h hd (List.mem_cons_self _ _)
    have h2 := sumPaid_nonneg tl (fun x hx => h x (List.mem_cons_of_mem _ hx))
    have hcons : hd.paid + sumPaid tl = 0 := hz
    intro x hx
    rcases List.mem_cons.mp hx with rfl | hx2
    · omega
    · exact ih (by omega) (fun y hy => h y (List.mem_cons_of_mem _ hy)) x hx2

/-- C9: an event with `totalCents == 0` (with non-negative paid amounts, so
every participant paid zero) and an event with exactly one participant both
yield an empty transfer list and an empty settlement map. `Expense.Settle`
has no error channel in the source (its only return value is the settlement),
so no error is signalled. -/
theorem C9_zero_total_and_single_participant (ps : List Participant) :
    (ps.length = 1 →
      (Expense.ofParticipants ps).settleTransfers = [] ∧
      (Expense.ofParticipants ps).Settle = []) ∧
    (sumPaid ps = 0 → (∀ x ∈ ps, 0 ≤ x.paid) →
      (Expense.ofParticipants ps).settleTransfers = [] ∧
      (Expense.ofParticipants ps).Settle = []) := by
  constructor
  · intro h1
    have hj0 : ps.length - 1 = 0 := by omega
    have heq : (Expense.ofParticipants ps).settleTransfers
        = (settleLoop (Expense.ofParticipants ps).avg
            (settleFuel (Expense.ofParticipants ps).avg (sortByPaid ps))
            (sortByPaid ps) 0 (ps.length - 1) []).2 := rfl
    have hfuel : settleFuel (Expense.ofParticipants ps).avg (sortByPaid ps)
        = ((sortByPaid ps).length
            + surplus (Expense.ofParticipants ps).avg (sortByPaid ps)) + 1 := rfl
    have hTrans : (Expense.ofParticipants ps).settleTransfers = [] := by
      rw [heq, hj0, hfuel, settleLoop_end _ _ _ _ _ _ (by omega)]
    refine ⟨hTrans, ?_⟩
    show (Expense.ofParticipants ps).settleTransfers.foldl accTransfer [] = []
    rw [hTrans]
    rfl
  · intro hz hpos
    have hav : (Expense.ofParticipants ps).avg = 0 := by
      show fairShare (sumPaid ps) ps.length = 0
      rw [hz]; exact fairShare_zero ps.length
    by_cases hps : ps = []
    · subst hps
      exact ⟨rfl, rfl⟩
    · have hzero := allPaid_zero ps hz hpos
      have hjlt : ps.length - 1 < (sortByPaid ps).length := by
        rw [sortByPaid_length]
        have := List.length_pos.mpr hps
        omega
      have hall : ∀ k, k < (sortByPaid ps).length →
          (getP (sortByPaid ps) k).paid ≤ (Expense.ofParticipants ps).avg := by
        intro k hk
        have hmem := (sortByPaid_perm ps).subset (getP_mem _ k hk)
        rw [hav, hzero _ hmem]
      have heq : (Expense.ofParticipants ps).settleTransfers
          = (settleLoop (Expense.ofParticipants ps).avg
              (settleFuel (Expense.ofParticipants ps).avg (sortByPaid ps))
              (sortByPaid ps) 0 (ps.length - 1) []).2 := rfl
      have hTrans : (Expense.ofParticipants ps).settleTransfers = [] := by
        rw [heq, settleLoop_stall _ _ _ _ _ _ hjlt hall]
      refine ⟨hTrans, ?_⟩
      show (Expense.ofParticipants ps).settleTransfers.foldl accTransfer [] = []
      rw [hTrans]
      rfl

/-- C8: for every event whose participant identities are pairwise distinct,
every transfer emitted by Settle has payer distinct from payee (never a
self-transfer) and a strictly positive amount; consequently every entry of the
returned settlement map binds distinct identities to a strictly positive
amount. -/
theorem C8_no_self_transfer (ps : List Participant)
    (hnd : (ps.map (fun x => x.email)).Nodup) :
    (∀ t ∈ (Expense.ofParticipants ps).settleTransfers,
      t.payer ≠ t.payee ∧ 0 < t.amount) ∧
    (∀ p q a, entry? (Expense.ofParticipants ps).Settle p q = some a →
      p ≠ q ∧ 0 < a) := by
  have HD : DistinctEmails (sortByPaid ps) :=
    distinctEmails_of_nodup _ (((sortByPaid_perm ps).map _).nodup_iff.mpr hnd)
  have hemit : ∀ t ∈ (Expense.ofParticipants ps).settleTransfers,
      t.payer ≠ t.payee ∧ 0 < t.amount := by
    intro t ht
    obtain ⟨hpos2, kj, ki, hkj, hki, hne, hp, he⟩ :=
      settleTransfers_emit (Expense.ofParticipants ps) t ht
    refine ⟨?_, hpos2⟩
    rw [hp, he]
    exact HD kj ki hkj hki hne
  refine ⟨hemit, ?_⟩
  intro p q a ha
  obtain ⟨pp, hpp, hqa⟩ := entry?_mem _ p q a ha
  have h1 : MapPairs (fun p q => p ≠ q) (Expense.ofParticipants ps).Settle := by
    apply settleFold_pairs (fun p q => p ≠ q) _ (fun t ht => (hemit t ht).1)
    intro kv hkv
    simp at hkv
  have h2 := settle_entry_pos (Expense.ofParticipants ps)
  exact ⟨h1 (p, pp) hpp (q, a) hqa, h2 (p, pp) hpp (q, a) hqa⟩

/-! ### Scenario trips for the aggregation claims -/

/-- A trip whose two events settle to the transfers a→b:500 and then
b→a:500, cancelling exactly. -/
def cancelTrip : List Expense :=
  [Expense.ofParticipants
    [{ email := "b", paid := 1000 }, { email := "a", paid := 0 }],
   Expense.ofParticipants
    [{ email := "a", paid := 1000 }, { email := "b", paid := 0 }]]

/-- C6: exact reciprocal cancellation. The two events of `cancelTrip` settle
to exactly a→b:500 and then b→a:500, and the final ledger of Complete's fold
has no entry for the pair in either direction. -/
theorem C6_exact_cancellation :
    tripTransfers cancelTrip
      = [{ payer := "a", payee := "b", amount := 500 },
         { payer := "b", payee := "a", amount := 500 }] ∧
    entry? (tripLedger cancelTrip).rslt "a" "b" = none ∧
    entry? (tripLedger cancelTrip).rslt "b" "a" = none := by decide

/-! ### Payer rows are never removed -/

theorem alookup_aset_keep {β : Type} (m : List (String × β)) (k' k : String)
    (v : β) (h : alookup m k ≠ none) : alookup (aset m k' v) k ≠ none := by
  by_cases hk : k' = k
  · subst hk
    rw [alookup_aset_self]
    simp
  · rw [alookup_aset_ne m k' k v hk]
    exact h

theorem decEntry_keep (s : Settlement) (rcv k0 : String) (amt : Int)
    (k : String) (h : alookup s k ≠ none) :
    alookup (decEntry s rcv k0 amt) k ≠ none := by
  rw [decEntry_eq]
  cases halo : alookup s rcv with
  | none => exact h
  | some pp =>
    show alookup (if (alookup pp k0).getD 0 - amt = 0 then aset s rcv (adel pp k0)
      else aset s rcv (aset pp k0 ((alookup pp k0).getD 0 - amt))) k ≠ none
    by_cases hz : (alookup pp k0).getD 0 - amt = 0
    · rw [if_pos hz]; exact alookup_aset_keep s rcv k _ h
    · rw [if_neg hz]; exact alookup_aset_keep s rcv k _ h

theorem delEntry_keep (s : Settlement) (rcv k0 : String) (k : String)
    (h : alookup s k ≠ none) : alookup (delEntry s rcv k0) k ≠ none := by
  rw [delEntry_eq]
  cases halo : alookup s rcv with
  | none => exact h
  | some pp =>
    show alookup (aset s rcv (adel pp k0)) k ≠ none
    exact alookup_aset_keep s rcv k _ h

theorem upsert_keep (s : Settlement) (p q : String) (a : Int) (l : List String)
    (k : String) (h : alookup s k ≠ none) :
    alookup (upsertAmount s p q a l).1 k ≠ none := by
  rw [upsert_rslt]
  cases halo : alookup s p with
  | none => exact alookup_aset_keep s p k _ h
  | some pp => exact alookup_aset_keep s p k _ h

/-- C10: Complete never removes a payer key from the Settlement once created
(every netting branch only updates rows in place or deletes inner entries),
and on the exactly-cancelling trip the returned Settlement still contains the
payer key "a" mapped to an empty Payments map rather than omitting the payer
entirely. -/
theorem C10_payer_key_retained :
    (∀ (st : FoldState) (t : Transfer) (k : String),
      alookup st.rslt k ≠ none → alookup (foldTransfer st t).rslt k ≠ none) ∧
    alookup (tripLedger cancelTrip).rslt "a" = some [] := by
  constructor
  · intro st t k h
    by_cases hseen : hasKey st.lookup (pairKey t.payee t.payer) = true
    · by_cases hge : t.amount ≤ getAmt st.rslt t.payee t.payer
      · rw [foldTransfer_seen_ge st t hseen hge]
        exact decEntry_keep st.rslt t.payee t.payer t.amount k h
      · rw [foldTransfer_seen_lt st t hseen hge]
        exact upsert_keep (delEntry st.rslt t.payee t.payer) t.payer t.payee
          (t.amount - getAmt st.rslt t.payee t.payer)
          (delKey st.lookup (pairKey t.payee t.payer)) k
          (delEntry_keep st.rslt t.payee t.payer k h)
    · have hseen' : hasKey st.lookup (pairKey t.payee t.payer) = false := by
        cases hh : hasKey st.lookup (pairKey t.payee t.payer)
        · rfl
        · exact absurd hh hseen
      rw [foldTransfer_unseen st t hseen']
      exact upsert_keep st.rslt t.payer t.payee t.amount st.lookup k h
  · decide

/-- C5 (amended): when a transfer meets an existing reverse ledger entry with
`existing ≥ amount`, the reverse entry is decremented by the amount and the
ledger entry is removed when it reaches exactly zero — but the seen-pair
marker is NOT removed: the seen-pair set is left unchanged by this branch
(only the `existing < amount` branch deletes markers), so the seen set can
retain a marker for a pair no longer present in the ledger. -/
theorem C5_marker_retained (st : FoldState) (t : Transfer)
    (h1 : hasKey st.lookup (pairKey t.payee t.payer) = true)
    (h2 : t.amount ≤ getAmt st.rslt t.payee t.payer) (h3 : 0 < t.amount) :
    (foldTransfer st t).lookup = st.lookup ∧
    (getAmt st.rslt t.payee t.payer = t.amount →
      entry? (foldTransfer st t).rslt t.payee t.payer = none) ∧
    (getAmt st.rslt t.payee t.payer ≠ t.amount →
      entry? (foldTransfer st t).rslt t.payee t.payer
        = some (getAmt st.rslt t.payee t.payer - t.amount)) := by
  rw [foldTransfer_seen_ge st t h1 h2]
  cases hE : entry? st.rslt t.payee t.payer with
  | none =>
    exfalso
    rw [getAmt_eq_entry, hE] at h2
    simp at h2
    omega
  | some w =>
    have hw : getAmt st.rslt t.payee t.payer = w := by
      rw [getAmt_eq_entry, hE]; rfl
    have hdec := entry?_decEntry_self st.rslt t.payee t.payer t.amount w hE
    rw [hw]
    refine ⟨rfl, ?_, ?_⟩
    · intro hwa
      rw [hdec, if_pos (by omega)]
    · intro hwa
      rw [hdec, if_neg (by omega)]

/-- C5 counterexample: on the exactly-cancelling trip, after Complete's fold
the ledger entry for a→b is gone but the seen-pair set still contains the
marker "a>b" — the marker is retained for a pair no longer present in the
ledger, contradicting "remove the entry and its seen-pair marker entirely". -/
theorem C5_counterexample :
    entry? (tripLedger cancelTrip).rslt "a" "b" = none ∧
    hasKey (tripLedger cancelTrip).lookup (pairKey "a" "b") = true := by decide

/-- C4 counterexample: `Trip.Complete` itself performs database operations —
its operation trace is non-empty and contains the trip-complete UPDATE that
sets the trip's end date — contradicting the claim that the aggregation
performs no I/O and leaves closing the trip to the caller. -/
theorem C4_counterexample :
    (Trip.Complete { ID := 1, Expenses := [] } 0).2 ≠ [] ∧
    DBOp.exec tripCompleteSQL 0 1 ∈ (Trip.Complete { ID := 1, Expenses := [] } 0).2 := by
  decide

/-- C4 (amended): `Trip.Complete` computes the ledger as a pure fold over the
settled transfers, and in addition itself marks the trip as closed: it begins
a transaction, executes the trip-complete UPDATE setting `end_date = now` for
its trip id, and commits. The ledger computation involves no I/O, but the
function does perform this database write rather than leaving it to the
caller. -/
theorem C4_complete_effects (t : Trip) (now : Int) :
    (t.Complete now).1 = tripLedger t.Expenses ∧
    (t.Complete now).2
      = [DBOp.beginTx, DBOp.prepare tripCompleteSQL,
         DBOp.exec tripCompleteSQL now t.ID, DBOp.commit] ∧
    (t.Complete now).2 ≠ [] := by
  refine ⟨rfl, rfl, ?_⟩
  simp [Trip.Complete]

/-! ### Order independence of net values -/

theorem getAmt_upsert_self (s : Settlement) (p q : String) (a : Int)
    (l : List String) :
    getAmt (upsertAmount s p q a l).1 p q = getAmt s p q + a := by
  rw [getAmt_eq_entry, entry?_upsert_self]
  rfl

theorem getAmt_upsert_frame (s : Settlement) (p q x y : String) (a : Int)
    (l : List String) (h : ¬(x = p ∧ y = q)) :
    getAmt (upsertAmount s p q a l).1 x y = getAmt s x y := by
  rw [getAmt_eq_entry, entry?_upsert_frame s p q x y a l h, ← getAmt_eq_entry]

theorem getAmt_delEntry_self (s : Settlement) (rcv k : String) :
    getAmt (delEntry s rcv k) rcv k = 0 := by
  rw [getAmt_eq_entry, entry?_delEntry_self]
  rfl

theorem getAmt_delEntry_frame (s : Settlement) (rcv k x y : String)
    (h : ¬(x = rcv ∧ y = k)) :
    getAmt (delEntry s rcv k) x y = getAmt s x y := by
  rw [getAmt_eq_entry, entry?_delEntry_frame s rcv k x y h, ← getAmt_eq_entry]

theorem getAmt_decEntry_self (s : Settlement) (rcv k : String) (amt w : Int)
    (hE : entry? s rcv k = some w) :
    getAmt (decEntry s rcv k amt) rcv k = w - amt := by
  rw [getAmt_eq_entry, entry?_decEntry_self s rcv k amt w hE]
  by_cases hz : w - amt = 0
  · rw [if_pos hz]
    simp [hz]
  · rw [if_neg hz]
    rfl

theorem getAmt_decEntry_frame (s : Settlement) (rcv k x y : String) (amt : Int)
    (h : ¬(x = rcv ∧ y = k)) :
    getAmt (decEntry s rcv k amt) x y = getAmt s x y := by
  rw [getAmt_eq_entry, entry?_decEntry_frame s rcv k x y amt h, ← getAmt_eq_entry]

/-- The fold step does not touch ledger cells outside the transfer's pair. -/
theorem getAmt_foldTransfer_frame (st : FoldState) (t : Transfer) (x y : String)
    (h1 : ¬(x = t.payer ∧ y = t.payee)) (h2 : ¬(x = t.payee ∧ y = t.payer)) :
    getAmt (foldTransfer st t).rslt x y = getAmt st.rslt x y := by
  by_cases hseen : hasKey st.lookup (pairKey t.payee t.payer) = true
  · by_cases hge : t.amount ≤ getAmt st.rslt t.payee t.payer
    · rw [foldTransfer_seen_ge st t hseen hge]
      exact getAmt_decEntry_frame st.rslt t.payee t.payer x y t.amount h2
    · rw [foldTransfer_seen_lt st t hseen hge]
      rw [getAmt_upsert_frame (delEntry st.rslt t.payee t.payer) t.payer t.payee
        x y (t.amount - getAmt st.rslt t.payee t.payer)
        (delKey st.lookup (pairKey t.payee t.payer)) h1]
      exact getAmt_delEntry_frame st.rslt t.payee t.payer x y h2
  · have hseen' : hasKey st.lookup (pairKey t.payee t.payer) = false := by
      cases hh : hasKey st.lookup (pairKey t.payee t.payer)
      · rfl
      · exact absurd hh hseen
    rw [foldTransfer_unseen st t hseen']
    exact getAmt_upsert_frame st.rslt t.payer t.payee x y t.amount st.lookup h1

/-- The fold step adds exactly the transfer amount to the net debt of the
transfer's pair. -/
theorem getAmt_foldTransfer_net (st : FoldState) (t : Transfer)
    (hpq : t.payer ≠ t.payee) (ha : 0 < t.amount) :
    getAmt (foldTransfer st t).rslt t.payer t.payee
      - getAmt (foldTransfer st t).rslt t.payee t.payer
      = getAmt st.rslt t.payer t.payee - getAmt st.rslt t.payee t.payer
        + t.amount := by
  by_cases hseen : hasKey st.lookup (pairKey t.payee t.payer) = true
  · by_cases hge : t.amount ≤ getAmt st.rslt t.payee t.payer
    · rw [foldTransfer_seen_ge st t hseen hge]
      cases hE : entry? st.rslt t.payee t.payer with
      | none =>
        exfalso
        rw [getAmt_eq_entry, hE] at hge
        simp at hge
        omega
      | some w =>
        have hw : getAmt st.rslt t.payee t.payer = w := by
          rw [getAmt_eq_entry, hE]; rfl
        rw [getAmt_decEntry_self st.rslt t.payee t.payer t.amount w hE,
          getAmt_decEntry_frame st.rslt t.payee t.payer t.payer t.payee t.amount
            (fun hh => hpq hh.1), hw]
        ring
    · rw [foldTransfer_seen_lt st t hseen hge]
      rw [getAmt_upsert_self, getAmt_delEntry_frame st.rslt t.payee t.payer
        t.payer t.payee (fun hh => hpq hh.1)]
      rw [getAmt_upsert_frame (delEntry st.rslt t.payee t.payer) t.payer t.payee
        t.payee t.payer (t.amount - getAmt st.rslt t.payee t.payer)
        (delKey st.lookup (pairKey t.payee t.payer)) (fun hh => hpq hh.2),
        getAmt_delEntry_self]
      ring
  · have hseen' : hasKey st.lookup (pairKey t.payee t.payer) = false := by
      cases hh : hasKey st.lookup (pairKey t.payee t.payer)
      · rfl
      · exact absurd hh hseen
    rw [foldTransfer_unseen st t hseen']
    rw [getAmt_upsert_self, getAmt_upsert_frame st.rslt t.payer t.payee
      t.payee t.payer t.amount st.lookup (fun hh => hpq hh.2)]
    ring

theorem contrib_diag (t : Transfer) (a : String) : contrib t a a = 0 := by
  unfold contrib
  by_cases h : t.payer = a ∧ t.payee = a
  · rw [if_pos h]
    ring
  · rw [if_neg h]
    ring

/-- One fold step changes every pair's net debt by the transfer's signed
contribution. -/
theorem netAmt_foldTransfer (st : FoldState) (t : Transfer) (ha : 0 < t.amount)
    (a b : String) :
    netAmt (foldTransfer st t).rslt a b = netAmt st.rslt a b + contrib t a b := by
  by_cases hab : a = b
  · subst hab
    unfold netAmt
    rw [contrib_diag]
    ring
  · by_cases hpq : t.payer = t.payee
    · have hc : contrib t a b = 0 := by
        unfold contrib
        have hc1 : ¬(t.payer = a ∧ t.payee = b) := by
          rintro ⟨hx, hy⟩
          exact hab (by rw [← hx, ← hy]; exact hpq)
        have hc2 : ¬(t.payer = b ∧ t.payee = a) := by
          rintro ⟨hx, hy⟩
          exact hab (by rw [← hx, ← hy]; exact hpq.symm)
        rw [if_neg hc1, if_neg hc2]
        ring
      have hf1 : getAmt (foldTransfer st t).rslt a b = getAmt st.rslt a b := by
        apply getAmt_foldTransfer_frame
        · rintro ⟨hx, hy⟩
          exact hab (by rw [hx, hy, hpq])
        · rintro ⟨hx, hy⟩
          exact hab (by rw [hx, hy, hpq])
      have hf2 : getAmt (foldTransfer st t).rslt b a = getAmt st.rslt b a := by
        apply getAmt_foldTransfer_frame
        · rintro ⟨hx, hy⟩
          exact hab (by rw [hx, hy, hpq])
        · rintro ⟨hx, hy⟩
          exact hab (by rw [hx, hy, hpq])
      unfold netAmt
      rw [hf1, hf2, hc]
      ring
    · by_cases h1 : a = t.payer ∧ b = t.payee
      · obtain ⟨rfl, rfl⟩ := h1
        have hnet := getAmt_foldTransfer_net st t hpq ha
        have hc : contrib t t.payer t.payee = t.amount := by
          unfold contrib
          rw [if_pos ⟨rfl, rfl⟩, if_neg (fun hh => hpq hh.1)]
          ring
        unfold netAmt
        rw [hc]
        omega
      · by_cases h2 : a = t.payee ∧ b = t.payer
        · obtain ⟨rfl, rfl⟩ := h2
          have hnet := getAmt_foldTransfer_net st t hpq ha
          have hc : contrib t t.payee t.payer = -t.amount := by
            unfold contrib
            rw [if_neg (fun hh => hpq hh.1), if_pos ⟨rfl, rfl⟩]
            ring
          unfold netAmt
          rw [hc]
          omega
        · have hf1 : getAmt (foldTransfer st t).rslt a b = getAmt st.rslt a b := by
            apply getAmt_foldTransfer_frame
            · rintro ⟨hx, hy⟩
              exact h1 ⟨hx, hy⟩
            · rintro ⟨hx, hy⟩
              exact h2 ⟨hx, hy⟩
          have hf2 : getAmt (foldTransfer st t).rslt b a = getAmt st.rslt b a := by
            apply getAmt_foldTransfer_frame
            · rintro ⟨hx, hy⟩
              exact h2 ⟨hy, hx⟩
            · rintro ⟨hx, hy⟩
              exact h1 ⟨hy, hx⟩
          have hc : contrib t a b = 0 := by
            unfold contrib
            rw [if_neg (fun hh => h1 ⟨hh.1.symm, hh.2.symm⟩),
              if_neg (fun hh => h2 ⟨hh.2.symm, hh.1.symm⟩)]
            ring
          unfold netAmt
          rw [hf1, hf2, hc]
          ring

theorem netAmt_fold (ts : List Transfer) (hpos : ∀ t ∈ ts, 0 < t.amount) :
    ∀ st a b, netAmt (ts.foldl foldTransfer st).rslt a b
      = netAmt st.rslt a b + netContrib ts a b := by
  induction ts with
  | nil =>
    intro st a b
    simp [netContrib]
  | cons t ts ih =>
    intro st a b
    show netAmt (ts.foldl foldTransfer (foldTransfer st t)).rslt a b = _
    rw [ih (fun u hu => hpos u (List.mem_cons_of_mem _ hu)) (foldTransfer st t) a b,
      netAmt_foldTransfer st t (hpos t (List.mem_cons_self _ _)) a b]
    unfold netContrib
    rw [List.map_cons, List.sum_cons]
    ring

/-- C7: event-order independence of net values. For every list of expenditure
events and every permutation of it, running Complete's aggregation fold on the
permuted list yields a final ledger with the same net value for every ordered
pair of identities. -/
theorem C7_order_independence (es es2 : List Expense) (hperm : es.Perm es2)
    (a b : String) :
    netAmt (tripLedger es).rslt a b = netAmt (tripLedger es2).rslt a b := by
  unfold tripLedger
  rw [netAmt_fold (tripTransfers es) (tripTransfers_pos es) initState a b,
    netAmt_fold (tripTransfers es2) (tripTransfers_pos es2) initState a b]
  have hp : (tripTransfers es).Perm (tripTransfers es2) := by
    unfold tripTransfers
    exact (hperm.map (fun e => settlementEntries e.Settle)).flatten
  unfold netContrib
  congr 1
  exact (hp.map _).sum_eq

/-! ### Witnesses at concrete inputs -/

/-- A concrete well-formed event: a paid 5, b and c paid nothing. -/
def wps : List Participant :=
  [{ email := "a", paid := 5 }, { email := "b", paid := 0 },
   { email := "c", paid := 0 }]

theorem C1_conservation_witness :
    (wps ≠ [] ∧ (∀ x ∈ wps, 0 ≤ x.paid)
      ∧ (wps.map (fun x => x.email)).Nodup) ∧
    ((wps.map (fun x =>
      |effective (Expense.ofParticipants wps).settleTransfers x
        - (Expense.ofParticipants wps).avg|)).sum ≤ (wps.length : Int) - 1 ∧
    ∀ x ∈ wps,
      |effective (Expense.ofParticipants wps).settleTransfers x
        - (Expense.ofParticipants wps).avg| ≤ (wps.length : Int) - 1) :=
  ⟨⟨by decide, by decide, by decide⟩,
   C1_conservation_per_event wps (by decide) (by decide) (by decide)⟩

theorem C3_netting_witness :
    (∀ e ∈ cancelTrip, ∀ x ∈ e.participants, sepFree x.email) ∧
    (∀ m,
      (∀ p q a,
        entry? (((tripTransfers cancelTrip).take m).foldl foldTransfer
          initState).rslt p q = some a → 0 < a) ∧
      (∀ p q, p ≠ q →
        ¬(entry? (((tripTransfers cancelTrip).take m).foldl foldTransfer
            initState).rslt p q ≠ none ∧
          entry? (((tripTransfers cancelTrip).take m).foldl foldTransfer
            initState).rslt q p ≠ none))) :=
  ⟨by decide, C3_netting_invariant_sepFree cancelTrip (by decide)⟩

/-- The aggregation state after folding the first transfer of the cancelling
trip: ledger a→b:500 with its seen-pair marker. -/
def c5State : FoldState :=
  foldTransfer initState { payer := "a", payee := "b", amount := 500 }

theorem C5_marker_witness :
    (hasKey c5State.lookup
        (pairKey (Transfer.mk "b" "a" 500).payee (Transfer.mk "b" "a" 500).payer)
        = true ∧
      (Transfer.mk "b" "a" 500).amount
        ≤ getAmt c5State.rslt (Transfer.mk "b" "a" 500).payee
            (Transfer.mk "b" "a" 500).payer ∧
      (0 : Int) < (Transfer.mk "b" "a" 500).amount) ∧
    ((foldTransfer c5State (Transfer.mk "b" "a" 500)).lookup = c5State.lookup ∧
    (getAmt c5State.rslt (Transfer.mk "b" "a" 500).payee
        (Transfer.mk "b" "a" 500).payer = (Transfer.mk "b" "a" 500).amount →
      entry? (foldTransfer c5State (Transfer.mk "b" "a" 500)).rslt
        (Transfer.mk "b" "a" 500).payee (Transfer.mk "b" "a" 500).payer = none) ∧
    (getAmt c5State.rslt (Transfer.mk "b" "a" 500).payee
        (Transfer.mk "b" "a" 500).payer ≠ (Transfer.mk "b" "a" 500).amount →
      entry? (foldTransfer c5State (Transfer.mk "b" "a" 500)).rslt
        (Transfer.mk "b" "a" 500).payee (Transfer.mk "b" "a" 500).payer
        = some (getAmt c5State.rslt (Transfer.mk "b" "a" 500).payee
            (Transfer.mk "b" "a" 500).payer - (Transfer.mk "b" "a" 500).amount))) :=
  ⟨⟨by decide, by decide, by decide⟩,
   C5_marker_retained c5State (Transfer.mk "b" "a" 500)
     (by decide) (by decide) (by decide)⟩

theorem C7_order_witness :
    cancelTrip.Perm cancelTrip.reverse ∧
    netAmt (tripLedger cancelTrip).rslt "a" "b"
      = netAmt (tripLedger cancelTrip.reverse).rslt "a" "b" :=
  ⟨(List.reverse_perm cancelTrip).symm,
   C7_order_independence cancelTrip cancelTrip.reverse
     (List.reverse_perm cancelTrip).symm "a" "b"⟩

theorem C8_no_self_transfer_witness :
    (wps.map (fun x => x.email)).Nodup ∧
    ((∀ t ∈ (Expense.ofParticipants wps).settleTransfers,
      t.payer ≠ t.payee ∧ 0 < t.amount) ∧
    (∀ p q a, entry? (Expense.ofParticipants wps).Settle p q = some a →
      p ≠ q ∧ 0 < a)) :=
  ⟨by decide, C8_no_self_transfer wps (by decide)⟩

theorem C9_witness :
    (Expense.ofParticipants
      [({ email := "a", paid := 7 } : Participant)]).settleTransfers = [] ∧
    (Expense.ofParticipants
      [({ email := "a", paid := 7 } : Participant)]).Settle = [] :=
  (C9_zero_total_and_single_participant
    [({ email := "a", paid := 7 } : Participant)]).1 rfl

theorem C10_payer_key_witness :
    alookup (foldTransfer { rslt := [("a", [("b", 5)])], lookup := ["a>b"] }
      { payer := "x", payee := "y", amount := 3 }).rslt "a" ≠ none :=
  C10_payer_key_retained.1
    { rslt := [("a", [("b", 5)])], lookup := ["a>b"] }
    { payer := "x", payee := "y", amount := 3 } "a" (by decide)

end TripAccountant
